import Mathlib

/-!
# Verification of the Rescue cipher / Rescue-Prime hash library

A shallow embedding, in Lean 4, of the core of a C++ library implementing the
Rescue family of symmetric primitives over F_p with p = 2^255 - 19:

* 256-bit field arithmetic (`Fp`, modelled as `ZMod p`),
* parameter derivation (`get_alpha_and_inverse`, `mod_inverse_extended`,
  `wide_bytes_to_fp`, Cauchy MDS matrices),
* the Rescue permutation and its inverse (`rescue_permutation`,
  `rescue_permutation_inverse`),
* the sponge hash (`RescuePrimeHash::digest`) and the CTR-mode cipher
  (`RescueCipher`).

Column vectors are modelled as `List F`, matrices as row-major
`List (List F)`.  Machine integers (`uint256`, `mpz_class`) are modelled as
`Nat`/`Int` with explicit truncation where the code truncates.  Fallible
operations are modelled with `Except`.  The SHAKE256 extendable-output
function comes from OpenSSL (outside this repository), so round keys derived
from it are universally quantified rather than computed.
-/

/-! ## Fast modular exponentiation (proof infrastructure)

Kernel-evaluable binary exponentiation on `Nat`, used to check the Pratt
primality certificate for p and to evaluate concrete field powers. -/

def powModAux (m : Nat) : Nat → Nat → Nat → Nat → Nat
  | 0, _, _, acc => acc
  | fuel + 1, b, e, acc =>
      if e = 0 then acc
      else powModAux m fuel (b * b % m) (e / 2) (if e % 2 = 1 then acc * b % m else acc)

def powMod (m b e : Nat) : Nat := powModAux m 256 (b % m) e (1 % m)

/-! ## The field -/

/-- The prime modulus `Fp::P`, the Curve25519 base field characteristic. -/
def p : ℕ := 2 ^ 255 - 19

/-- Field elements: the C++ class `Fp` keeps a 256-bit value with the
invariant `0 ≤ value < p`, restored after every operation; this is exactly
`ZMod p`. -/
abbrev F : Type := ZMod p

/-- Little-endian byte deserialization (`deserialize_le` / the byte-span
`Fp` constructor): bytes are accumulated little-endian. -/
def leVal (bytes : List ℕ) : ℕ := bytes.foldr (fun b acc => b + 256 * acc) 0

/-- `Fp::to_bytes`: 32-byte little-endian serialization of a field element. -/
def fpToBytes (x : F) : List ℕ := (List.range 32).map (fun i => x.val / 256 ^ i % 256)

/-! ## Parameter derivation (`get_alpha_and_inverse`) -/

/-- The candidate S-box exponents tried by `get_alpha_and_inverse`. -/
def smallPrimes : List ℕ := [2, 3, 5, 7, 11, 13, 17, 19, 23, 29, 31, 37, 41, 43, 47]

/-- `divides(a, b)`: the limb-wise long-division remainder test, i.e.
`b % a = 0`. -/
def dividesU (a b : ℕ) : Bool := b % a == 0

/-- The α search loop in `get_alpha_and_inverse`: the first small prime that
does not divide `p - 1` (the code throws if none is found; `0` models that
unreachable branch). -/
def alphaOf (pv : ℕ) : ℕ := ((smallPrimes.find? (fun a => ¬ dividesU a (pv - 1))).getD 0)

/-- One state of the extended-Euclid loop of `mod_inverse_extended`:
`(old_r, r, old_s, s)`, iterated with explicit fuel.  The inner long
division computes exactly `old_r / r` and `old_r % r`; the product `q * s`
is truncated to 256 bits (`mul_wide(...).low()`), and the negative-update
branch adds the modulus back (clamping to `0` in the unreachable
`diff ≥ m` case). -/
def mieAux (m : ℕ) : ℕ → ℕ → ℕ → ℕ → ℕ → ℕ
  | 0, _, _, old_s, _ => old_s
  | fuel + 1, old_r, r, old_s, s =>
      if r = 0 then old_s
      else
        let q := old_r / r
        let t := old_r % r
        let qs := q * s % 2 ^ 256
        let s' := if qs ≤ old_s then old_s - qs
                  else (if qs - old_s < m then m - (qs - old_s) else 0)
        mieAux m fuel r t s s'

/-- `mod_inverse_extended(a, m)`: extended Euclid, with the final reduction
of the result into `[0, m)`. -/
def modInverseExtended (a m : ℕ) : ℕ :=
  let res := mieAux m 512 m a 0 1
  if m ≤ res then res - m else res

/-- `get_alpha_and_inverse(p)`: the pair `(α, α⁻¹ mod (p-1))`. -/
def getAlphaAndInverse (pv : ℕ) : ℕ × ℕ :=
  (alphaOf pv, modInverseExtended (alphaOf pv) (pv - 1))

/-- The concrete value of `α⁻¹ = 5⁻¹ mod (p - 1)` computed by the library. -/
def alphaInvVal : ℕ :=
  34737626771194858627071295502606372355980995399692169211837275202373938891969

/-! ## The 48-byte wide reduction (`wide_bytes_to_fp`) -/

/-- `wide_bytes_to_fp`: chunks of at most 32 bytes are deserialized
directly; longer chunks are split into the low 256 bits (limbs 0–3) and the
remaining high bits (limbs 4–5), and recombined as `low + 38 * high` in the
field. -/
def wideBytesToFp (bytes : List ℕ) : F :=
  if bytes.length ≤ 32 then ((leVal bytes : ℕ) : F)
  else
    let low : ℕ := leVal bytes % 2 ^ 256
    let high : ℕ := leVal bytes / 2 ^ 256
    (low : F) + (high : F) * (38 : F)

/-! ## Vectors and matrices

`Matrix` is row-major; column vectors are plain lists.  `Matrix::pow` is
element-wise exponentiation (`Fp::pow`, i.e. `mpz_powm`, which maps exponent
`0` to `1` for every base). -/

def vecAdd (a b : List F) : List F := List.zipWith (· + ·) a b

def vecSub (a b : List F) : List F := List.zipWith (· - ·) a b

/-- Element-wise power of a column vector (`Matrix::pow` on a column). -/
def vecPow (v : List F) (e : ℕ) : List F := v.map (· ^ e)

/-- `Matrix::pow`: element-wise field power of every entry. -/
def matPow (M : List (List F)) (e : ℕ) : List (List F) := M.map (fun row => row.map (· ^ e))

/-- One inner product of `Matrix::mat_mul`: `sum = ZERO; sum += a[i][k] * b[k]`. -/
def dotProd (r v : List F) : F := (List.zipWith (· * ·) r v).foldl (· + ·) 0

/-- `Matrix::mat_mul` applied to a column vector. -/
def matMulVec (M : List (List F)) (v : List F) : List F := M.map (fun row => dotProd row v)

/-- The all-ones matrix of the same shape as `M`. -/
def onesLike (M : List (List F)) : List (List F) := M.map (fun row => row.map (fun _ => 1))

/-! ## The Montgomery-ladder `fp::pow` (uint256 backend) -/

/-- The ladder loop of the uint256 `fp::pow`: 255 iterations from bit 254
down to bit 0; each step computes `r0*r1`, `r0²`, `r1²` and selects by the
exponent bit. -/
def powLadderAux (e : ℕ) : ℕ → F → F → F
  | 0, r0, _ => r0
  | n + 1, r0, r1 =>
      let bit := e.testBit n
      let r0r1 := r0 * r1
      let r0s := r0 * r0
      let r1s := r1 * r1
      powLadderAux e n (if bit then r0r1 else r0s) (if bit then r1s else r0r1)

/-- `fp::pow(base, exp)`: constant-time Montgomery ladder over 255 bits. -/
def fpPowLadder (base : F) (e : ℕ) : F := powLadderAux e 255 1 base

/-! ## Cauchy MDS matrices -/

/-- `build_cauchy_matrix(size)`: `M[i][j] = (i + j)⁻¹` for 1-based `i, j`. -/
def buildCauchyMatrix (size : ℕ) : List (List F) :=
  (List.range size).map (fun i =>
    (List.range size).map (fun j => (((i + 1) + (j + 1) : ℕ) : F)⁻¹))

/-- `product` in `build_inverse_cauchy_matrix`: the product of a list of
signed integers mapped into the field (a negative `v` is mapped to
`p - |v|`, i.e. to the integer cast of `v`). -/
def intProd (l : List ℤ) : F := l.foldl (fun acc v => acc * ((v : ℤ) : F)) 1

/-- `prime_product(arr, exclude)`: the product of `exclude - u` over the
members `u ≠ exclude`. -/
def primeProduct (l : List ℤ) (exclude : ℤ) : F :=
  l.foldl (fun acc u => if u = exclude then acc else acc * ((exclude - u : ℤ) : F)) 1

/-- `build_inverse_cauchy_matrix(size)`: the closed-form inverse of the
Cauchy matrix, entry by entry, exactly as the code assembles it from
`a`, `a'`, `b`, `b'` and the final denominator `-i - j`. -/
def buildInverseCauchyMatrix (size : ℕ) : List (List F) :=
  (List.range size).map (fun i0 : ℕ =>
    (List.range size).map (fun j0 : ℕ =>
      let i : ℤ := (i0 : ℤ) + 1
      let j : ℤ := (j0 : ℤ) + 1
      let negRange := (List.range size).map (fun k : ℕ => -i - ((k : ℤ) + 1))
      let posRange := (List.range size).map (fun k : ℕ => (k : ℤ) + 1)
      let jPlusRange := (List.range size).map (fun k : ℕ => j + ((k : ℤ) + 1))
      let negOnly := (List.range size).map (fun k : ℕ => -((k : ℤ) + 1))
      let a := intProd negRange
      let aPrime := primeProduct posRange j
      let b := intProd jPlusRange
      let bPrime := primeProduct negOnly (-i)
      let denominator := aPrime * bPrime * ((-i - j : ℤ) : F)
      a * b * denominator⁻¹))

/-! ## The Rescue permutation -/

/-- `RescueMode`: tagged variant, `CipherMode { key }` or
`HashMode { m, capacity }`. -/
inductive RescueMode : Type
  | CipherMode (key : List F)
  | HashMode (m capacity : ℕ)

/-- `exponent_for_even`: cipher mode uses `α⁻¹` on even rounds, hash mode
uses `α`. -/
def exponentForEven (mode : RescueMode) (alpha alphaInverse : ℕ) : ℕ :=
  match mode with
  | .CipherMode _ => alphaInverse
  | .HashMode _ _ => alpha

/-- `exponent_for_odd`: cipher mode uses `α` on odd rounds, hash mode uses
`α⁻¹`. -/
def exponentForOdd (mode : RescueMode) (alpha alphaInverse : ℕ) : ℕ :=
  match mode with
  | .CipherMode _ => alpha
  | .HashMode _ _ => alphaInverse

/-- The forward round loop: from `states[r]` build
`states[r+1] = mds * states[r]^e + subkeys[r+1]`, with `e` chosen by the
parity of `r`.  Returns the whole `states` list (as the C++ function
returns the vector of all intermediate states). -/
def rescuePermutationGo (mds : List (List F)) (eE eO : ℕ) :
    List F → ℕ → List (List F) → List (List F)
  | s, _, [] => [s]
  | s, r, k :: ks =>
      s :: rescuePermutationGo mds eE eO
        (vecAdd (matMulVec mds (vecPow s (if r % 2 = 0 then eE else eO))) k) (r + 1) ks

/-- `rescue_permutation`: `states[0] = state + subkeys[0]`, then one round
per remaining subkey.  (The C++ indexes `subkeys[0]` unconditionally; the
empty-subkey case cannot arise and is modelled by `[]`.) -/
def rescuePermutation (mode : RescueMode) (alpha alphaInverse : ℕ)
    (mds : List (List F)) (subkeys : List (List F)) (state : List F) : List (List F) :=
  match subkeys with
  | [] => []
  | k0 :: ks =>
      rescuePermutationGo mds (exponentForEven mode alpha alphaInverse)
        (exponentForOdd mode alpha alphaInverse) (vecAdd state k0) 0 ks

/-- The inverse round loop: from `u_r` build
`u_{r+1} = (mds⁻¹ * (u_r - k))^e`, with `e` chosen by the parity of `r` and
`k` drawn from the reversed tail of the subkey list (the C++ indexes
`subkeys[size - 1 - r]`).  Returns all intermediate states. -/
def rescuePermutationInverseGo (mdsInv : List (List F)) (eE eO : ℕ) :
    List F → ℕ → List (List F) → List (List F)
  | s, _, [] => [s]
  | s, r, k :: ks =>
      s :: rescuePermutationInverseGo mdsInv eE eO
        (vecPow (matMulVec mdsInv (vecSub s k)) (if r % 2 = 0 then eE else eO)) (r + 1) ks

/-- `rescue_permutation_inverse`: run the inverse rounds on the reversed
key schedule, append the final `u_{2N} - subkeys[0]`, and drop the initial
state (the C++ `erase(begin)`), so that the result again has one entry per
subkey with the fully inverted state last. -/
def rescuePermutationInverse (mode : RescueMode) (alpha alphaInverse : ℕ)
    (mdsInv : List (List F)) (subkeys : List (List F)) (state : List F) : List (List F) :=
  match subkeys with
  | [] => []
  | k0 :: ks =>
      let states := rescuePermutationInverseGo mdsInv
        (exponentForEven mode alpha alphaInverse)
        (exponentForOdd mode alpha alphaInverse) state 0 ks.reverse
      states.tail ++ [vecSub (states.getLastD state) k0]

/-! ## Descriptors

`RescueDesc` resolves all parameters at construction: α and α⁻¹ from
`get_alpha_and_inverse(Fp::P)`, the MDS matrix and its inverse from the
Cauchy construction, and the round keys.  The round keys are SHAKE256
output (cipher mode additionally runs them through the key schedule);
SHAKE256 lives in OpenSSL, outside this repository, so `roundKeys` is a
parameter here.  Modelled from the spec: for m ∈ {5, 12} the code loads
precomputed MDS tables, which the spec fixes to be exactly "the standard
5×5 and 12×12 inverse-Cauchy MDS matrices", i.e. equal to
`build_cauchy_matrix`. -/
structure RescueDescM : Type where
  mode : RescueMode
  nRounds : ℕ
  roundKeys : List (List F)

/-- `RescueDesc::m()`: the state size (cipher: key length, hash: `m`). -/
def RescueDescM.mval (d : RescueDescM) : ℕ :=
  match d.mode with
  | .CipherMode key => key.length
  | .HashMode m _ => m

/-- `RescueDesc::permute`: run the forward permutation with the stored
round keys and take `states[2 * n_rounds]` (the last state, as
`round_keys` has `2N + 1` entries). -/
def RescueDescM.permute (d : RescueDescM) (state : List F) : List F :=
  (rescuePermutation d.mode (getAlphaAndInverse p).1 (getAlphaAndInverse p).2
    (buildCauchyMatrix d.mval) d.roundKeys state).getD (2 * d.nRounds) []

/-- `RescueDesc::permute_inverse`: run the inverse permutation and take
`states[2 * n_rounds]`. -/
def RescueDescM.permuteInverse (d : RescueDescM) (state : List F) : List F :=
  (rescuePermutationInverse d.mode (getAlphaAndInverse p).1 (getAlphaAndInverse p).2
    (buildInverseCauchyMatrix d.mval) d.roundKeys state).getD (2 * d.nRounds) []

/-- The `RescueDesc` invariants (spec §3): a valid mode (cipher key of at
least 2 elements, or hash `m > capacity ≥ 1`), `2N + 1` round keys, each a
length-`m` column vector, with `m` a `size_t` value. -/
def RescueDescM.valid (d : RescueDescM) : Prop :=
  (match d.mode with
   | .CipherMode key => 2 ≤ key.length
   | .HashMode m capacity => capacity < m ∧ 1 ≤ capacity) ∧
  d.roundKeys.length = 2 * d.nRounds + 1 ∧
  (∀ k ∈ d.roundKeys, k.length = d.mval) ∧
  d.mval < 2 ^ 64

/-! ## Constant-time arithmetic (`rescue::ct`)

The bit-vector layer works on the low `bin_size` bits in two's complement:
`to_bin_le` takes the low bits of the (GMP, infinitely sign-extended)
operand, `adder` is a ripple-carry chain, `from_bin_le` reads the result
back with the top bit carrying weight `-2^(bin_size-1)`. -/

/-- `from_bin_le ∘ to_bin_le`: reduce to `bin` bits and interpret in two's
complement. -/
def tcDecode (v : ℤ) (bin : ℕ) : ℤ :=
  let low := v % 2 ^ bin
  if low < 2 ^ (bin - 1) then low else low - 2 ^ bin

/-- `ct::add`: ripple-carry addition of the low `bin` bits. -/
def ctAdd (x y : ℤ) (bin : ℕ) : ℤ := tcDecode (x + y) bin

/-- `ct::sub`: `x + NOT(y) + 1` on `bin` bits. -/
def ctSub (x y : ℤ) (bin : ℕ) : ℤ :=
  tcDecode (x % 2 ^ bin + (2 ^ bin - 1 - y % 2 ^ bin) + 1) bin

/-- `ct::get_bit` / `ct::sign_bit`: bit `i` of the infinitely sign-extended
two's-complement representation. -/
def intBit (x : ℤ) (i : ℕ) : Bool := decide (x % 2 ^ (i + 1) / 2 ^ i = 1)

/-- `ct::lt`: the sign bit (at index `bin_size`) of `x - y`. -/
def ctLt (x y : ℤ) (bin : ℕ) : Bool := intBit (ctSub x y bin) bin

/-- `ct::select`: `y + cond * (x - y)`, with the scaled difference masked
back to `bin` bits. -/
def ctSelect (cond : Bool) (x y : ℤ) (bin : ℕ) : ℤ :=
  ctAdd y (tcDecode ((if cond then 1 else 0) * ctSub x y bin) bin) bin

/-- `ct::get_bin_size`: bit length of the maximum value, plus three guard
bits. -/
def getBinSize (maxValue : ℕ) : ℕ := if maxValue = 0 then 3 else maxValue.size + 3

/-- `ct::field_add`: add, then conditionally subtract `p`, both selected
constant-time. -/
def ctFieldAdd (x y P : ℤ) (bin : ℕ) : ℤ :=
  let sum := ctAdd x y bin
  ctSelect (!(ctLt sum P bin)) (ctSub sum P bin) sum bin

/-- `Matrix::add` with `constant_time = true` on column vectors: apply
`ct::field_add` at `bin_size = get_bin_size(p - 1)` to the underlying
values and reduce back into the field. -/
def ctVecAdd (a b : List F) : List F :=
  List.zipWith
    (fun x y => ((ctFieldAdd (x.val : ℤ) (y.val : ℤ) (p : ℤ) (getBinSize (p - 1)) : ℤ) : F)) a b

/-! ## The sponge hash (`RescuePrimeHash`) -/

/-- Default hash parameters (`rescue_hash.hpp`). -/
def RESCUE_HASH_RATE : ℕ := 7

def RESCUE_HASH_CAPACITY : ℕ := 5

def RESCUE_HASH_STATE_SIZE : ℕ := RESCUE_HASH_RATE + RESCUE_HASH_CAPACITY

def RESCUE_HASH_DIGEST_LENGTH : ℕ := 5

/-- The sponge object: rate, capacity, digest length, and its hash-mode
descriptor. -/
structure RescuePrimeHashM : Type where
  rate : ℕ
  capacity : ℕ
  digestLength : ℕ
  desc : RescueDescM

/-- The padding loop of `digest`: append `Fp::ZERO` while the length is not
a multiple of the rate.  The loop body runs at most `rate - 1` times, so
fuel `rate` is exact; `rate = 0` (rejected by the constructor) would not
terminate and is cut off by the fuel. -/
def padLoop (rate : ℕ) : List F → ℕ → List F
  | l, 0 => l
  | l, fuel + 1 => if l.length % rate = 0 then l else padLoop rate (l ++ [0]) fuel

/-- `RescuePrimeHash::digest`: pad with `ONE` then zeros, absorb rate-sized
chunks (each extended by capacity zeros and added to the state with the
constant-time path), permuting after each, then take the first
`digest_length` state elements. -/
def RescuePrimeHashM.digest (h : RescuePrimeHashM) (message : List F) : List F :=
  let padded := padLoop h.rate (message ++ [1]) h.rate
  let m := h.desc.mval
  let nBlocks := padded.length / h.rate
  let finalState := (List.range nBlocks).foldl
    (fun state block =>
      let absorbVec := (padded.drop (block * h.rate)).take h.rate ++
        List.replicate (m - h.rate) (0 : F)
      h.desc.permute (ctVecAdd state absorbVec))
    (List.replicate m (0 : F))
  finalState.take h.digestLength

/-! ## The CTR cipher (`RescueCipher`) -/

def RESCUE_CIPHER_BLOCK_SIZE : ℕ := 5

def RESCUE_CIPHER_NONCE_SIZE : ℕ := 16

def RESCUE_CIPHER_SECRET_SIZE : ℕ := 32

/-- The cipher object: its cipher-mode descriptor (built from the derived
key). -/
structure RescueCipherM : Type where
  desc : RescueDescM

/-- `RescueCipher::generate_counter`: per block, `[nonce, block_index]`
padded with zeros to the block size. -/
def generateCounter (nonce : ℕ) (nBlocks : ℕ) : List F :=
  (List.range nBlocks).flatMap (fun block =>
    [(nonce : F), (block : F)] ++ List.replicate (RESCUE_CIPHER_BLOCK_SIZE - 2) (0 : F))

/-- `RescueCipher::encrypt_raw`: empty plaintext yields empty output;
otherwise encrypt `⌈len/5⌉` counter blocks with the permutation and add the
keystream to the plaintext element-wise (the last block is truncated to the
remaining plaintext length). -/
def RescueCipherM.encryptRaw (c : RescueCipherM) (plaintext : List F) (nonce : ℕ) : List F :=
  if plaintext.isEmpty then []
  else
    let nBlocks := (plaintext.length + RESCUE_CIPHER_BLOCK_SIZE - 1) / RESCUE_CIPHER_BLOCK_SIZE
    let counter := generateCounter nonce nBlocks
    (List.range nBlocks).flatMap (fun block =>
      let blockCounter := (counter.drop (block * RESCUE_CIPHER_BLOCK_SIZE)).take
        RESCUE_CIPHER_BLOCK_SIZE
      let encryptedCounter := c.desc.permute blockCounter
      List.zipWith (· + ·)
        ((plaintext.drop (block * RESCUE_CIPHER_BLOCK_SIZE)).take RESCUE_CIPHER_BLOCK_SIZE)
        encryptedCounter)

/-- `RescueCipher::decrypt_raw`: the same counter stream, subtracting the
keystream instead of adding it. -/
def RescueCipherM.decryptRaw (c : RescueCipherM) (ciphertext : List F) (nonce : ℕ) : List F :=
  if ciphertext.isEmpty then []
  else
    let nBlocks := (ciphertext.length + RESCUE_CIPHER_BLOCK_SIZE - 1) / RESCUE_CIPHER_BLOCK_SIZE
    let counter := generateCounter nonce nBlocks
    (List.range nBlocks).flatMap (fun block =>
      let blockCounter := (counter.drop (block * RESCUE_CIPHER_BLOCK_SIZE)).take
        RESCUE_CIPHER_BLOCK_SIZE
      let encryptedCounter := c.desc.permute blockCounter
      List.zipWith (· - ·)
        ((ciphertext.drop (block * RESCUE_CIPHER_BLOCK_SIZE)).take RESCUE_CIPHER_BLOCK_SIZE)
        encryptedCounter)

/-- `RescueCipher::derive_key`, size check already passed: deserialize the
secret little-endian and hash `[Fp(1), Fp(secret), Fp(BLOCK_SIZE)]` with
the default `RescuePrimeHash` (whose hash-mode descriptor is `h`). -/
def deriveKeyRaw (h : RescuePrimeHashM) (sharedSecret : List ℕ) : List F :=
  h.digest [(1 : F), ((leVal sharedSecret : ℕ) : F), ((RESCUE_CIPHER_BLOCK_SIZE : ℕ) : F)]

/-- `RescueCipher::derive_key` with its size validation: throws
`invalid_argument` unless the secret is exactly 32 bytes. -/
def deriveKeyE (h : RescuePrimeHashM) (sharedSecret : List ℕ) : Except String (List F) :=
  if sharedSecret.length ≠ RESCUE_CIPHER_SECRET_SIZE then
    Except.error "Shared secret must be 32 bytes"
  else Except.ok (deriveKeyRaw h sharedSecret)

/-- The `encrypt_raw` overload taking a variable-length nonce: throws
`invalid_argument` unless the nonce is exactly 16 bytes. -/
def encryptRawVecE (c : RescueCipherM) (plaintext : List F) (nonce : List ℕ) :
    Except String (List F) :=
  if nonce.length ≠ RESCUE_CIPHER_NONCE_SIZE then Except.error "Nonce must be 16 bytes"
  else Except.ok (c.encryptRaw plaintext (leVal nonce))

/-- The `decrypt_raw` overload taking a variable-length nonce. -/
def decryptRawVecE (c : RescueCipherM) (ciphertext : List F) (nonce : List ℕ) :
    Except String (List F) :=
  if nonce.length ≠ RESCUE_CIPHER_NONCE_SIZE then Except.error "Nonce must be 16 bytes"
  else Except.ok (c.decryptRaw ciphertext (leVal nonce))

/-- `RescueCipher::decrypt` (serialized, fixed-size nonce): each ciphertext
element must be exactly `Fp::BYTES = 32` bytes, otherwise
`invalid_argument`; valid elements are deserialized little-endian and
passed to `decrypt_raw`. -/
def decryptSerializedE (c : RescueCipherM) (ciphertext : List (List ℕ)) (nonce : ℕ) :
    Except String (List F) :=
  if ciphertext.any (fun bytes => bytes.length ≠ 32) then
    Except.error "Each ciphertext element must be 32 bytes"
  else Except.ok (c.decryptRaw (ciphertext.map (fun bytes => ((leVal bytes : ℕ) : F))) nonce)

/-! ## The spec's description of the inverse permutation (for refinement)

The spec (§4.7) describes the inverse permutation with the parity
assignment reversed relative to the forward pass: in cipher mode
`e' = (r even) ? α : α⁻¹`, in hash mode `e' = (r even) ? α⁻¹ : α`.
This definition follows the spec's words; the code is
`rescuePermutationInverse` above. -/
def specRescuePermutationInverse (mode : RescueMode) (alpha alphaInverse : ℕ)
    (mdsInv : List (List F)) (subkeys : List (List F)) (state : List F) : List (List F) :=
  match subkeys with
  | [] => []
  | k0 :: ks =>
      let states := rescuePermutationInverseGo mdsInv
        (exponentForOdd mode alpha alphaInverse)
        (exponentForEven mode alpha alphaInverse) state 0 ks.reverse
      states.tail ++ [vecSub (states.getLastD state) k0]

/-- The spec's inverse-permutation recurrence with the exponent parity
corrected to match the code (the same parity assignment as the forward
pass): the final state after `u_{r+1} = (M⁻¹ · (u_r - K_{2N-r}))^{e'}` for
`r = 0 .. 2N-1` with `e' = (r even) ? α⁻¹ : α` in cipher mode
(`(r even) ? α : α⁻¹` in hash mode), then `u_{2N} - K₀`. -/
def amendedRescuePermutationInverse (mode : RescueMode) (alpha alphaInverse : ℕ)
    (mdsInv : List (List F)) (subkeys : List (List F)) (state : List F) : List F :=
  vecSub
    ((List.range (subkeys.length - 1)).foldl
      (fun u r =>
        vecPow (matMulVec mdsInv (vecSub u (subkeys.getD (subkeys.length - 1 - r) [])))
          (if r % 2 = 0 then exponentForEven mode alpha alphaInverse
           else exponentForOdd mode alpha alphaInverse))
      state)
    (subkeys.getD 0 [])

/-! ## Node abbreviations for the closed-form Cauchy inverse

These repackage the factors appearing in `build_inverse_cauchy_matrix`
(0-based indices throughout): `nodeF k = k + 1` is the `k`-th node,
`phiF m i = ∏_{l<m} (i + l + 2)` is the numerator product `a`/`b`,
and `psiF m k = ∏_{l ≠ k} (ν k − ν l)` is the `prime_product`
denominator. -/

def nodeF (k : ℕ) : F := ((k + 1 : ℕ) : F)

def phiF (m i0 : ℕ) : F := ∏ l in Finset.range m, ((i0 + l + 2 : ℕ) : F)

def psiF (m k : ℕ) : F := ∏ l in (Finset.range m).erase k, (nodeF k - nodeF l)

/-! ## Theorems

### Modular exponentiation and the primality of p -/

theorem powModAux_spec (m : Nat) (hm : 0 < m) :
    ∀ fuel b e acc, e < 2 ^ fuel → acc < m →
      powModAux m fuel b e acc = acc * b ^ e % m := by
  intro fuel
  induction fuel with
  | zero =>
      intro b e acc he hacc
      interval_cases e
      simp [powModAux, Nat.mod_eq_of_lt hacc]
  | succ n ih =>
      intro b e acc he hacc
      rw [powModAux]
      by_cases h0 : e = 0
      · simp [h0, Nat.mod_eq_of_lt hacc]
      · rw [if_neg h0]
        have hacc' : (if e % 2 = 1 then acc * b % m else acc) < m := by
          split
          · exact Nat.mod_lt _ hm
          · exact hacc
        have he2 : e / 2 < 2 ^ n := by
          rw [pow_succ] at he; omega
        rw [ih _ _ _ he2 hacc']
        have hsq : (b * b % m) ^ (e / 2) ≡ (b * b) ^ (e / 2) [MOD m] :=
          (Nat.mod_modEq _ _).pow _
        have hexp : b ^ (e % 2) * (b * b) ^ (e / 2) = b ^ e := by
          rw [show b * b = b ^ 2 by ring, ← pow_mul, ← pow_add]
          congr 1
          omega
        by_cases hpar : e % 2 = 1
        · rw [if_pos hpar]
          calc (acc * b % m) * (b * b % m) ^ (e / 2)
              ≡ (acc * b) * (b * b) ^ (e / 2) [MOD m] := (Nat.mod_modEq _ _).mul hsq
            _ = acc * (b ^ (e % 2) * (b * b) ^ (e / 2)) := by rw [hpar]; ring
            _ = acc * b ^ e := by rw [hexp]
        · rw [if_neg hpar]
          have hpar0 : e % 2 = 0 := by omega
          calc acc * (b * b % m) ^ (e / 2)
              ≡ acc * (b * b) ^ (e / 2) [MOD m] := (Nat.ModEq.refl _).mul hsq
            _ = acc * (b ^ (e % 2) * (b * b) ^ (e / 2)) := by rw [hpar0]; ring
            _ = acc * b ^ e := by rw [hexp]

theorem powMod_spec (m b e : Nat) (hm : 1 < m) (he : e < 2 ^ 256) :
    powMod m b e = b ^ e % m := by
  rw [powMod, powModAux_spec m (by omega) 256 _ e _ he (Nat.mod_lt _ (by omega))]
  rw [Nat.one_mod_eq_one.mpr (by omega), one_mul, ← Nat.pow_mod]

/-- Verified Pratt/Lucas primality certificate: a witness `a` and the full
prime factor list (with multiplicity) of `n - 1`. -/
theorem lucas_cert (n a : ℕ) (qs : List ℕ) (hn : 2 ≤ n) (hsz : n < 2 ^ 256)
    (hprod : qs.prod = n - 1)
    (hq : ∀ q ∈ qs, Nat.Prime q)
    (hpow : powMod n a (n - 1) = 1)
    (hne : ∀ q ∈ qs, powMod n a ((n - 1) / q) ≠ 1) : Nat.Prime n := by
  have hn1 : 1 < n := hn
  have hcast : ∀ e : ℕ, e < 2 ^ 256 → ((a : ZMod n) ^ e = 1 ↔ powMod n a e = 1) := by
    intro e he
    rw [powMod_spec n a e hn1 he]
    constructor
    · intro h
      have : ((a ^ e : ℕ) : ZMod n) = ((1 : ℕ) : ZMod n) := by
        push_cast
        simpa using h
      rw [ZMod.natCast_eq_natCast_iff'] at this
      simpa [Nat.mod_eq_of_lt hn1] using this
    · intro h
      calc (a : ZMod n) ^ e = ((a ^ e : ℕ) : ZMod n) := by push_cast; ring
        _ = ((a ^ e % n : ℕ) : ZMod n) := (ZMod.natCast_mod _ _).symm
        _ = ((1 : ℕ) : ZMod n) := by rw [h]
        _ = 1 := Nat.cast_one
  apply lucas_primality n (a : ZMod n)
  · exact (hcast (n - 1) (by omega)).mpr hpow
  · intro q hqp hqdvd
    have hqmem : q ∈ qs := by
      rw [← hprod] at hqdvd
      obtain ⟨r, hr, hqr⟩ := (hqp.prime.dvd_prod_iff).mp hqdvd
      rwa [(Nat.prime_dvd_prime_iff_eq hqp (hq r hr)).mp hqr]
    intro hcontra
    exact hne q hqmem
      ((hcast ((n - 1) / q) (lt_of_le_of_lt (Nat.div_le_self _ _) (by omega))).mp hcontra)

set_option maxRecDepth 4000

theorem prime_2773320623 : Nat.Prime 2773320623 :=
  lucas_cert 2773320623 5 [2, 2437, 569003] (by norm_num) (by norm_num)
    (by norm_num)
    (by intro q hq; fin_cases hq <;> norm_num)
    (by decide)
    (by intro q hq; fin_cases hq <;> decide)

theorem prime_72106336199 : Nat.Prime 72106336199 :=
  lucas_cert 72106336199 7 [2, 13, 2773320623] (by norm_num) (by norm_num)
    (by norm_num)
    (by intro q hq; fin_cases hq
        · norm_num
        · norm_num
        · exact prime_2773320623)
    (by decide)
    (by intro q hq; fin_cases hq <;> decide)

theorem prime_1919519569386763 : Nat.Prime 1919519569386763 :=
  lucas_cert 1919519569386763 2 [2, 3, 7, 19, 47, 47, 127, 8574133] (by norm_num) (by norm_num)
    (by norm_num)
    (by intro q hq; fin_cases hq <;> norm_num)
    (by decide)
    (by intro q hq; fin_cases hq <;> decide)

theorem prime_31757755568855353 : Nat.Prime 31757755568855353 :=
  lucas_cert 31757755568855353 10 [2, 2, 2, 3, 31, 107, 223, 4153, 430751] (by norm_num)
    (by norm_num)
    (by norm_num)
    (by intro q hq; fin_cases hq <;> norm_num)
    (by decide)
    (by intro q hq; fin_cases hq <;> decide)

theorem prime_75445702479781427272750846543864801 :
    Nat.Prime 75445702479781427272750846543864801 :=
  lucas_cert 75445702479781427272750846543864801 7
    [2, 2, 2, 2, 2, 3, 3, 5, 5, 75707, 72106336199, 1919519569386763] (by norm_num)
    (by norm_num)
    (by norm_num)
    (by intro q hq; fin_cases hq
        · norm_num
        · norm_num
        · norm_num
        · norm_num
        · norm_num
        · norm_num
        · norm_num
        · norm_num
        · norm_num
        · norm_num
        · exact prime_72106336199
        · exact prime_1919519569386763)
    (by decide)
    (by intro q hq; fin_cases hq <;> decide)

theorem prime_bigq :
    Nat.Prime 74058212732561358302231226437062788676166966415465897661863160754340907 :=
  lucas_cert 74058212732561358302231226437062788676166966415465897661863160754340907 2
    [2, 3, 353, 57467, 132049, 1923133, 31757755568855353,
      75445702479781427272750846543864801] (by norm_num)
    (by norm_num)
    (by norm_num)
    (by intro q hq; fin_cases hq
        · norm_num
        · norm_num
        · norm_num
        · norm_num
        · norm_num
        · norm_num
        · exact prime_31757755568855353
        · exact prime_75445702479781427272750846543864801)
    (by decide)
    (by intro q hq; fin_cases hq <;> decide)

/-- p = 2^255 - 19 is prime, so `F = ZMod p` is a field. -/
theorem p_prime : Nat.Prime p :=
  lucas_cert p 2
    [2, 2, 3, 65147, 74058212732561358302231226437062788676166966415465897661863160754340907]
    (by norm_num [p])
    (by norm_num [p])
    (by norm_num [p])
    (by intro q hq; fin_cases hq
        · norm_num
        · norm_num
        · norm_num
        · norm_num
        · exact prime_bigq)
    (by decide)
    (by intro q hq; fin_cases hq <;> decide)

instance : Fact (Nat.Prime p) := ⟨p_prime⟩

/-! ### Basic field facts -/

theorem p_pos : 0 < p := by norm_num [p]

theorem p_big : 2 ^ 64 < p := by norm_num [p]

/-- The α search finds 5 for p = 2^255 - 19. -/
theorem alphaOf_p : alphaOf p = 5 := by decide

/-- The embedded extended-Euclid loop computes the expected inverse. -/
theorem modInverseExtended_p : modInverseExtended 5 (p - 1) = alphaInvVal := by decide

theorem getAlphaAndInverse_p : getAlphaAndInverse p = (5, alphaInvVal) := by
  rw [getAlphaAndInverse, alphaOf_p, modInverseExtended_p]

theorem five_mul_alphaInvVal : 5 * alphaInvVal = 1 + 3 * (p - 1) := by decide

/-- The S-box inversion law: `x^(5·α⁻¹) = x` for every field element. -/
theorem pow_five_alphaInv (x : F) : x ^ (5 * alphaInvVal) = x := by
  by_cases hx : x = 0
  · subst hx
    rw [zero_pow]
    rw [five_mul_alphaInvVal]
    omega
  · rw [five_mul_alphaInvVal, pow_add, pow_one, mul_comm 3 (p - 1), pow_mul]
    rw [ZMod.pow_card_sub_one_eq_one hx]
    simp

theorem sbox_cancel_ed (x : F) : (x ^ (5 : ℕ)) ^ alphaInvVal = x := by
  rw [← pow_mul]
  exact pow_five_alphaInv x

theorem sbox_cancel_de (x : F) : (x ^ alphaInvVal) ^ (5 : ℕ) = x := by
  rw [← pow_mul, mul_comm]
  exact pow_five_alphaInv x

set_option maxRecDepth 10000

/-! ### C7: alpha derivation -/

/-- C7: for p = 2^255 - 19 the computed S-box exponent α is 5 (the first
small prime not dividing p - 1), and the computed α⁻¹ is a non-negative
residue strictly below p - 1 with 5 · α⁻¹ ≡ 1 (mod p - 1). -/
theorem C7_alpha_derivation :
    (getAlphaAndInverse p).1 = 5 ∧
    (getAlphaAndInverse p).2 < p - 1 ∧
    5 * (getAlphaAndInverse p).2 % (p - 1) = 1 := by
  rw [getAlphaAndInverse_p]
  refine ⟨rfl, by decide, by decide⟩

/-! ### C4: the 48-byte wide reduction -/

theorem cast_pow256 : ((2 ^ 256 : ℕ) : F) = ((38 : ℕ) : F) := by decide

/-- C4: for every 48-byte chunk, `wide_bytes_to_fp` (`low + 38 · high`)
agrees with reducing the full 384-bit little-endian value mod p. -/
theorem C4_wide_reduction (bytes : List ℕ) (hlen : bytes.length = 48)
    (_hbytes : ∀ b ∈ bytes, b < 256) :
    wideBytesToFp bytes = ((leVal bytes : ℕ) : F) := by
  rw [wideBytesToFp, if_neg (by omega)]
  have hsplit : leVal bytes = leVal bytes % 2 ^ 256 + 2 ^ 256 * (leVal bytes / 2 ^ 256) :=
    (Nat.mod_add_div _ _).symm
  conv_rhs => rw [hsplit, Nat.cast_add, Nat.cast_mul, cast_pow256]
  push_cast
  ring

theorem C4_wide_reduction_witness :
    (List.replicate 48 255).length = 48 ∧
    wideBytesToFp (List.replicate 48 255) = ((leVal (List.replicate 48 255) : ℕ) : F) :=
  ⟨by decide, C4_wide_reduction _ (by decide) (by decide)⟩

/-! ### C10: zero exponents -/

theorem powLadderAux_zero : ∀ (n : ℕ) (r1 : F), powLadderAux 0 n 1 r1 = 1 := by
  intro n
  induction n with
  | zero => intro r1; rfl
  | succ k ih =>
      intro r1
      simp only [powLadderAux, Nat.zero_testBit, Bool.false_eq_true, if_false, one_mul]
      exact ih r1

/-- C10: exponent 0 yields 1 for every base (including 0): the
Montgomery-ladder `fp::pow` returns 1, `Fp::pow` returns 1, and
`Matrix::pow(0)` maps every matrix to the all-ones matrix. -/
theorem C10_zero_exponent :
    (∀ base : F, fpPowLadder base 0 = 1) ∧
    (∀ x : F, x ^ (0 : ℕ) = 1) ∧
    (∀ M : List (List F), matPow M 0 = onesLike M) := by
  refine ⟨fun base => powLadderAux_zero 255 base, fun x => pow_zero x, fun M => ?_⟩
  simp [matPow, onesLike]

/-! ### C8: size-validation errors -/

/-- C8: `derive_key` fails with `invalid_argument` iff the secret is not
32 bytes; the variable-length-nonce `encrypt_raw`/`decrypt_raw` fail iff
the nonce is not 16 bytes; the serialized `decrypt` fails iff some
ciphertext element is not 32 bytes; in every failure case no result is
produced (and conversely a result is always produced on valid sizes). -/
theorem C8_size_validation (h : RescuePrimeHashM) (c : RescueCipherM) :
    (∀ secret : List ℕ,
      ((∃ msg, deriveKeyE h secret = Except.error msg) ↔ secret.length ≠ 32) ∧
      ((deriveKeyE h secret).isOk ↔ secret.length = 32)) ∧
    (∀ (pt : List F) (nonce : List ℕ),
      ((∃ msg, encryptRawVecE c pt nonce = Except.error msg) ↔ nonce.length ≠ 16) ∧
      ((encryptRawVecE c pt nonce).isOk ↔ nonce.length = 16)) ∧
    (∀ (ct : List F) (nonce : List ℕ),
      ((∃ msg, decryptRawVecE c ct nonce = Except.error msg) ↔ nonce.length ≠ 16) ∧
      ((decryptRawVecE c ct nonce).isOk ↔ nonce.length = 16)) ∧
    (∀ (sct : List (List ℕ)) (nonce : ℕ),
      ((∃ msg, decryptSerializedE c sct nonce = Except.error msg) ↔
        ∃ b ∈ sct, b.length ≠ 32) ∧
      ((decryptSerializedE c sct nonce).isOk ↔ ∀ b ∈ sct, b.length = 32)) := by
  refine ⟨fun secret => ?_, fun pt nonce => ?_, fun ct nonce => ?_, fun sct nonce => ?_⟩
  · rw [deriveKeyE]
    split
    · simp_all [Except.isOk, Except.toBool, RESCUE_CIPHER_SECRET_SIZE]
    · simp_all [Except.isOk, Except.toBool, RESCUE_CIPHER_SECRET_SIZE]
  · rw [encryptRawVecE]
    split
    · simp_all [Except.isOk, Except.toBool, RESCUE_CIPHER_NONCE_SIZE]
    · simp_all [Except.isOk, Except.toBool, RESCUE_CIPHER_NONCE_SIZE]
  · rw [decryptRawVecE]
    split
    · simp_all [Except.isOk, Except.toBool, RESCUE_CIPHER_NONCE_SIZE]
    · simp_all [Except.isOk, Except.toBool, RESCUE_CIPHER_NONCE_SIZE]
  · rw [decryptSerializedE]
    by_cases hex : ∃ b ∈ sct, b.length ≠ 32
    · rw [if_pos (by simpa using hex)]
      refine ⟨⟨fun _ => hex, fun _ => ⟨_, rfl⟩⟩, fun hok => ?_, fun hall => ?_⟩
      · simp [Except.isOk, Except.toBool] at hok
      · obtain ⟨b, hb, hne⟩ := hex
        exact absurd (hall b hb) hne
    · rw [if_neg (by simpa using hex)]
      push_neg at hex
      refine ⟨⟨fun hmsg => ?_, fun hcontra => ?_⟩, fun _ => hex, fun _ => ?_⟩
      · obtain ⟨msg, hmsg⟩ := hmsg
        exact Except.noConfusion hmsg
      · obtain ⟨b, hb, hne⟩ := hcontra
        exact absurd (hex b hb) hne
      · simp [Except.isOk, Except.toBool]

/-! ### Length lemmas -/

theorem length_buildCauchyMatrix (m : ℕ) : (buildCauchyMatrix m).length = m := by
  simp [buildCauchyMatrix]

theorem length_vecAdd (a b : List F) : (vecAdd a b).length = min a.length b.length := by
  simp [vecAdd]

theorem length_vecSub (a b : List F) : (vecSub a b).length = min a.length b.length := by
  simp [vecSub]

theorem length_vecPow (v : List F) (e : ℕ) : (vecPow v e).length = v.length := by
  simp [vecPow]

theorem length_matMulVec (M : List (List F)) (v : List F) :
    (matMulVec M v).length = M.length := by
  simp [matMulVec]

theorem rescuePermutationGo_length (mds : List (List F)) (eE eO : ℕ) :
    ∀ (ks : List (List F)) (s : List F) (r : ℕ),
      (rescuePermutationGo mds eE eO s r ks).length = ks.length + 1 := by
  intro ks
  induction ks with
  | nil => intro s r; rfl
  | cons k t ih => intro s r; simp [rescuePermutationGo, ih]

theorem rescuePermutationGo_getD_length (mds : List (List F)) (eE eO : ℕ) (m : ℕ)
    (hmds : mds.length = m) :
    ∀ (ks : List (List F)) (s : List F) (r i : ℕ),
      s.length = m → (∀ k ∈ ks, k.length = m) → i < ks.length + 1 →
      ((rescuePermutationGo mds eE eO s r ks).getD i []).length = m := by
  intro ks
  induction ks with
  | nil =>
      intro s r i hs _ hi
      simp only [List.length_nil] at hi
      have hi0 : i = 0 := by omega
      subst hi0
      simpa [rescuePermutationGo] using hs
  | cons k t ih =>
      intro s r i hs hks hi
      match i with
      | 0 => simpa [rescuePermutationGo] using hs
      | i + 1 =>
          rw [rescuePermutationGo]
          simp only [List.getD_cons_succ]
          apply ih
          · rw [length_vecAdd, length_matMulVec, hmds, hks k (by simp)]
            simp
          · exact fun k' hk' => hks k' (by simp [hk'])
          · simpa using hi

/-- The permutation of a valid descriptor maps length-m state vectors to
length-m state vectors. -/
theorem permute_length (d : RescueDescM) (hval : d.valid) (v : List F)
    (hv : v.length = d.mval) : (d.permute v).length = d.mval := by
  obtain ⟨_, hlen, hkeys, _⟩ := hval
  rw [RescueDescM.permute]
  cases hk : d.roundKeys with
  | nil => rw [hk] at hlen; simp at hlen
  | cons k0 ks =>
      rw [show rescuePermutation d.mode (getAlphaAndInverse p).1 (getAlphaAndInverse p).2
        (buildCauchyMatrix d.mval) (k0 :: ks) v =
        rescuePermutationGo (buildCauchyMatrix d.mval)
          (exponentForEven d.mode (getAlphaAndInverse p).1 (getAlphaAndInverse p).2)
          (exponentForOdd d.mode (getAlphaAndInverse p).1 (getAlphaAndInverse p).2)
          (vecAdd v k0) 0 ks from rfl]
      apply rescuePermutationGo_getD_length _ _ _ _ (length_buildCauchyMatrix _)
      · rw [length_vecAdd, hv, hkeys k0 (by rw [hk]; simp)]
        simp
      · exact fun k' hk' => hkeys k' (by rw [hk]; simp [hk'])
      · rw [hk] at hlen
        simp only [List.length_cons] at hlen
        omega

/-! ### C1: CTR round-trip -/

theorem zipWith_append_right_drop {α β γ : Type} (f : α → β → γ) :
    ∀ (l : List α) (l₂ l₃ : List β), l.length ≤ l₂.length →
      List.zipWith f l (l₂ ++ l₃) = List.zipWith f l l₂ := by
  intro l
  induction l with
  | nil => intro l₂ l₃ _; simp
  | cons a t ih =>
      intro l₂ l₃ h
      cases l₂ with
      | nil => simp at h
      | cons b t₂ => simp only [List.cons_append, List.zipWith_cons_cons]
                     rw [ih t₂ l₃ (by simpa using h)]

theorem length_flatMap_const (g : ℕ → List F) (B : ℕ) :
    ∀ n, (∀ b < n, (g b).length = B) → ((List.range n).flatMap g).length = n * B := by
  intro n
  induction n with
  | zero => intro _; simp
  | succ k ih =>
      intro h
      rw [List.range_succ, List.flatMap_append]
      simp only [List.length_append, List.flatMap_cons, List.flatMap_nil, List.append_nil]
      rw [ih (fun b hb => h b (by omega)), h k (by omega)]
      ring

theorem flatMap_chunk_zip (f : F → F → F) (B : ℕ) :
    ∀ (n : ℕ) (pt : List F) (ksf : ℕ → List F),
      (∀ b < n, (ksf b).length = B) → pt.length ≤ n * B →
      (List.range n).flatMap
        (fun b => List.zipWith f ((pt.drop (b * B)).take B) (ksf b)) =
      List.zipWith f pt ((List.range n).flatMap ksf) := by
  intro n
  induction n with
  | zero => intro pt ksf _ hle; simp_all
  | succ k ih =>
      intro pt ksf hks hle
      rw [List.range_succ_eq_map]
      rw [List.flatMap_cons, List.flatMap_map, List.flatMap_cons, List.flatMap_map]
      have htail :
          ((List.range k).flatMap
            (fun a => List.zipWith f ((pt.drop (a.succ * B)).take B) (ksf a.succ))) =
          List.zipWith f (pt.drop B) ((List.range k).flatMap (fun a => ksf a.succ)) := by
        have hfun : (fun a => List.zipWith f ((pt.drop (a.succ * B)).take B) (ksf a.succ)) =
            (fun a => List.zipWith f (((pt.drop B).drop (a * B)).take B)
              ((fun a => ksf a.succ) a)) := by
          funext b
          simp only [Nat.succ_eq_add_one]
          rw [List.drop_drop]
          congr 3
          ring
        rw [hfun]
        apply ih
        · exact fun b hb => hks (b + 1) (by omega)
        · rw [List.length_drop]
          have := hle
          rw [Nat.succ_mul] at this
          omega
      rw [htail]
      simp only [Nat.zero_mul, List.drop_zero]
      by_cases hsmall : pt.length ≤ B
      · have h1 : pt.take B = pt := List.take_of_length_le hsmall
        have h2 : pt.drop B = [] := List.drop_eq_nil_of_le hsmall
        rw [h1, h2]
        simp only [List.zipWith_nil_left, List.append_nil]
        rw [zipWith_append_right_drop f pt (ksf 0) _ (by rw [hks 0 (by omega)]; exact hsmall)]
      · conv_rhs => rw [show pt = pt.take B ++ pt.drop B from (List.take_append_drop B pt).symm]
        rw [List.zipWith_append _ _ _ _ _ (by rw [List.length_take, hks 0 (by omega)]; omega)]

theorem zipWith_sub_zipWith_add :
    ∀ (pt ks : List F), pt.length ≤ ks.length →
      List.zipWith (· - ·) (List.zipWith (· + ·) pt ks) ks = pt := by
  intro pt
  induction pt with
  | nil => intro ks _; simp
  | cons a t ih =>
      intro ks h
      cases ks with
      | nil => simp at h
      | cons b t₂ =>
          simp only [List.zipWith_cons_cons, add_sub_cancel_right, List.cons.injEq, true_and]
          exact ih t₂ (by simpa using h)

theorem generateCounter_length (x : ℕ) (n : ℕ) :
    (generateCounter x n).length = n * RESCUE_CIPHER_BLOCK_SIZE := by
  induction n with
  | zero => simp [generateCounter]
  | succ k ih =>
      rw [generateCounter, List.range_succ, List.flatMap_append] at *
      simp only [List.length_append, List.flatMap_cons, List.flatMap_nil, List.append_nil] at *
      rw [ih]
      simp [RESCUE_CIPHER_BLOCK_SIZE]
      ring

/-- C1: for every valid cipher (its descriptor has block size 5), every
plaintext (any length, including empty and non-multiples of 5), and every
16-byte nonce, `decrypt_raw(encrypt_raw(P, N), N) = P`. -/
theorem C1_ctr_roundtrip (c : RescueCipherM) (hval : c.desc.valid)
    (hm : c.desc.mval = RESCUE_CIPHER_BLOCK_SIZE)
    (plaintext : List F) (nonce : List ℕ) (_hnonce : nonce.length = 16) :
    c.decryptRaw (c.encryptRaw plaintext (leVal nonce)) (leVal nonce) = plaintext := by
  by_cases hpt : plaintext.isEmpty
  · rw [RescueCipherM.encryptRaw, if_pos hpt, RescueCipherM.decryptRaw, if_pos (by rfl)]
    rw [List.isEmpty_iff] at hpt
    exact hpt.symm
  · have hle : plaintext.length ≤
        ((plaintext.length + RESCUE_CIPHER_BLOCK_SIZE - 1) / RESCUE_CIPHER_BLOCK_SIZE) *
          RESCUE_CIPHER_BLOCK_SIZE := by
      simp only [RESCUE_CIPHER_BLOCK_SIZE]
      have := Nat.div_add_mod (plaintext.length + 5 - 1) 5
      omega
    set n := (plaintext.length + RESCUE_CIPHER_BLOCK_SIZE - 1) / RESCUE_CIPHER_BLOCK_SIZE with hn
    have hslice : ∀ b < n,
        (((generateCounter (leVal nonce) n).drop (b * RESCUE_CIPHER_BLOCK_SIZE)).take
          RESCUE_CIPHER_BLOCK_SIZE).length = RESCUE_CIPHER_BLOCK_SIZE := by
      intro b hb
      rw [List.length_take, List.length_drop, generateCounter_length]
      simp only [RESCUE_CIPHER_BLOCK_SIZE]
      omega
    have hks : ∀ b < n,
        (c.desc.permute (((generateCounter (leVal nonce) n).drop
          (b * RESCUE_CIPHER_BLOCK_SIZE)).take RESCUE_CIPHER_BLOCK_SIZE)).length
          = RESCUE_CIPHER_BLOCK_SIZE := by
      intro b hb
      rw [permute_length c.desc hval _ (by rw [hslice b hb, hm]), hm]
    have henc : c.encryptRaw plaintext (leVal nonce) =
        List.zipWith (· + ·) plaintext
          ((List.range n).flatMap
            (fun b => c.desc.permute
              (((generateCounter (leVal nonce) n).drop
                (b * RESCUE_CIPHER_BLOCK_SIZE)).take RESCUE_CIPHER_BLOCK_SIZE))) := by
      rw [RescueCipherM.encryptRaw, if_neg hpt]
      exact flatMap_chunk_zip _ RESCUE_CIPHER_BLOCK_SIZE n plaintext _ hks hle
    have hKSlen : ((List.range n).flatMap
        (fun b => c.desc.permute
          (((generateCounter (leVal nonce) n).drop
            (b * RESCUE_CIPHER_BLOCK_SIZE)).take RESCUE_CIPHER_BLOCK_SIZE))).length =
        n * RESCUE_CIPHER_BLOCK_SIZE :=
      length_flatMap_const _ RESCUE_CIPHER_BLOCK_SIZE n hks
    have hctlen : (c.encryptRaw plaintext (leVal nonce)).length = plaintext.length := by
      rw [henc, List.length_zipWith, hKSlen]
      omega
    have hctne : ¬ (c.encryptRaw plaintext (leVal nonce)).isEmpty = true := by
      rw [List.isEmpty_iff]
      intro hcontra
      apply hpt
      have hl : plaintext.length = 0 := by rw [← hctlen, hcontra]; rfl
      rw [List.isEmpty_iff]
      exact List.length_eq_zero.mp hl
    rw [RescueCipherM.decryptRaw, if_neg hctne, hctlen, ← hn]
    rw [henc]
    rw [flatMap_chunk_zip _ RESCUE_CIPHER_BLOCK_SIZE n _ _ hks
      (by rw [List.length_zipWith, hKSlen]; omega)]
    exact zipWith_sub_zipWith_add plaintext _ (by rw [hKSlen]; omega)

theorem C1_ctr_roundtrip_witness :
    (RescueCipherM.mk ⟨RescueMode.CipherMode [1, 1, 1, 1, 1], 0, [[0, 0, 0, 0, 0]]⟩).desc.valid ∧
    ((RescueCipherM.mk ⟨RescueMode.CipherMode [1, 1, 1, 1, 1], 0,
      [[0, 0, 0, 0, 0]]⟩).desc.mval = RESCUE_CIPHER_BLOCK_SIZE) ∧
    (List.replicate 16 0).length = 16 ∧
    (RescueCipherM.mk ⟨RescueMode.CipherMode [1, 1, 1, 1, 1], 0,
      [[0, 0, 0, 0, 0]]⟩).decryptRaw
      ((RescueCipherM.mk ⟨RescueMode.CipherMode [1, 1, 1, 1, 1], 0,
        [[0, 0, 0, 0, 0]]⟩).encryptRaw [1, 2, 3] (leVal (List.replicate 16 0)))
      (leVal (List.replicate 16 0)) = [1, 2, 3] :=
  ⟨⟨by decide, by decide, by decide, by decide⟩, by decide, by decide,
    C1_ctr_roundtrip _ ⟨by decide, by decide, by decide, by decide⟩ (by decide) _ _ (by decide)⟩

/-! ### The constant-time layer computes field addition -/

instance : NeZero p := ⟨by norm_num [p]⟩

theorem getBinSize_p : getBinSize (p - 1) = 258 := by
  rw [getBinSize, if_neg (by norm_num [p])]
  have h1 : (p - 1).size ≤ 255 := Nat.size_le.mpr (by norm_num [p])
  have h2 : 254 < (p - 1).size := Nat.lt_size.mpr (by norm_num [p])
  omega

theorem tcDecode_congr (bin : ℕ) (a b : ℤ) (h : a % 2 ^ bin = b % 2 ^ bin) :
    tcDecode a bin = tcDecode b bin := by
  rw [tcDecode, tcDecode, h]

theorem tcDecode_eq (bin : ℕ) (hbin : 1 ≤ bin) (v : ℤ)
    (hlo : -(2 ^ (bin - 1)) ≤ v) (hhi : v < 2 ^ (bin - 1)) : tcDecode v bin = v := by
  rw [tcDecode]
  have hpow : (2 : ℤ) ^ bin = 2 ^ (bin - 1) * 2 := by
    rw [← pow_succ]
    congr 1
    omega
  have hWpos : (0 : ℤ) < 2 ^ (bin - 1) := pow_pos (by norm_num) _
  by_cases hv : 0 ≤ v
  · have hmod : v % 2 ^ bin = v := Int.emod_eq_of_lt hv (by rw [hpow]; omega)
    rw [hmod, if_pos hhi]
  · push_neg at hv
    have hmod : v % 2 ^ bin = v + 2 ^ bin := by
      have hshift : (v + 2 ^ bin * 1) % 2 ^ bin = v % 2 ^ bin :=
        Int.add_mul_emod_self_left v (2 ^ bin) 1
      rw [mul_one] at hshift
      rw [← hshift]
      exact Int.emod_eq_of_lt (by rw [hpow]; omega) (by rw [hpow]; omega)
    rw [hmod, if_neg (by rw [hpow]; omega), hpow]
    omega

theorem ctAdd_tc (bin : ℕ) (x y : ℤ) : ctAdd x y bin = tcDecode (x + y) bin := rfl

theorem ctSub_tc (bin : ℕ) (x y : ℤ) : ctSub x y bin = tcDecode (x - y) bin := by
  rw [ctSub]
  apply tcDecode_congr
  have h1 : x % 2 ^ bin + (2 ^ bin - 1 - y % 2 ^ bin) + 1 =
      (x % 2 ^ bin - y % 2 ^ bin) + 2 ^ bin * 1 := by ring
  rw [h1, Int.add_mul_emod_self_left, ← Int.sub_emod]

theorem intBit_of_nonneg (bin : ℕ) (w : ℤ) (h0 : 0 ≤ w) (h : w < 2 ^ bin) :
    intBit w bin = false := by
  rw [intBit]
  have hlt : w < 2 ^ (bin + 1) := lt_of_lt_of_le h (by
    rw [pow_succ]
    nlinarith [pow_pos (show (0:ℤ) < 2 by norm_num) bin])
  rw [Int.emod_eq_of_lt h0 hlt]
  rw [Int.ediv_eq_zero_of_lt h0 h]
  decide

theorem intBit_of_neg (bin : ℕ) (w : ℤ) (hlo : -(2 ^ bin) ≤ w) (h : w < 0) :
    intBit w bin = true := by
  rw [intBit]
  have hpow : (2 : ℤ) ^ (bin + 1) = 2 ^ bin * 2 := by rw [pow_succ]
  have hWpos : (0 : ℤ) < 2 ^ bin := pow_pos (by norm_num) _
  have hmod : w % 2 ^ (bin + 1) = w + 2 ^ (bin + 1) := by
    have hshift : (w + 2 ^ (bin + 1) * 1) % 2 ^ (bin + 1) = w % 2 ^ (bin + 1) :=
      Int.add_mul_emod_self_left w (2 ^ (bin + 1)) 1
    rw [mul_one] at hshift
    rw [← hshift]
    exact Int.emod_eq_of_lt (by rw [hpow]; omega) (by rw [hpow]; omega)
  rw [hmod]
  have harg : w + 2 ^ (bin + 1) = (w + 2 ^ bin) + 2 ^ bin * 1 := by rw [hpow]; ring
  rw [harg, Int.add_mul_ediv_left _ _ (ne_of_gt hWpos)]
  rw [Int.ediv_eq_zero_of_lt (by omega) (by omega)]
  decide

theorem ctLt_eq (bin : ℕ) (hbin : 1 ≤ bin) (x y : ℤ)
    (hlo : -(2 ^ (bin - 1)) ≤ x - y) (hhi : x - y < 2 ^ (bin - 1)) :
    ctLt x y bin = decide (x < y) := by
  rw [ctLt, ctSub_tc, tcDecode_eq bin hbin _ hlo hhi]
  have hWle : (2 : ℤ) ^ (bin - 1) ≤ 2 ^ bin := pow_le_pow_right₀ (by norm_num) (by omega)
  by_cases hxy : x < y
  · rw [intBit_of_neg bin _ (by omega) (by omega)]
    simp [hxy]
  · rw [intBit_of_nonneg bin _ (by omega) (by omega)]
    simp [hxy]

theorem ctSelect_eq (bin : ℕ) (hbin : 1 ≤ bin) (cond : Bool) (x y : ℤ)
    (hx1 : -(2 ^ (bin - 1)) ≤ x) (hx2 : x < 2 ^ (bin - 1))
    (hy1 : -(2 ^ (bin - 1)) ≤ y) (hy2 : y < 2 ^ (bin - 1))
    (hd1 : -(2 ^ (bin - 1)) ≤ x - y) (hd2 : x - y < 2 ^ (bin - 1)) :
    ctSelect cond x y bin = if cond then x else y := by
  have hWpos : (0 : ℤ) < 2 ^ (bin - 1) := pow_pos (by norm_num) _
  rw [ctSelect, ctSub_tc, tcDecode_eq bin hbin _ hd1 hd2]
  cases cond with
  | false =>
      rw [if_neg (by simp : ¬false = true), if_neg (by simp : ¬false = true), zero_mul]
      rw [tcDecode_eq bin hbin 0 (by omega) (by omega), ctAdd_tc]
      rw [add_zero, tcDecode_eq bin hbin y hy1 hy2]
  | true =>
      rw [if_pos rfl, if_pos rfl, one_mul]
      rw [tcDecode_eq bin hbin _ hd1 hd2, ctAdd_tc]
      rw [show y + (x - y) = x by ring, tcDecode_eq bin hbin x hx1 hx2]

theorem ctFieldAdd_spec (bin : ℕ) (hbin : 1 ≤ bin) (P x y : ℤ)
    (hP : 0 < P) (hPbig : 2 * P < 2 ^ (bin - 1))
    (hx1 : 0 ≤ x) (hx2 : x < P) (hy1 : 0 ≤ y) (hy2 : y < P) :
    ctFieldAdd x y P bin = if x + y < P then x + y else x + y - P := by
  rw [ctFieldAdd]
  have hsum : ctAdd x y bin = x + y := by
    rw [ctAdd_tc, tcDecode_eq bin hbin _ (by omega) (by omega)]
  rw [hsum]
  rw [ctLt_eq bin hbin _ _ (by omega) (by omega)]
  have hsub : ctSub (x + y) P bin = x + y - P := by
    rw [ctSub_tc, tcDecode_eq bin hbin _ (by omega) (by omega)]
  rw [hsub]
  rw [ctSelect_eq bin hbin _ _ _ (by omega) (by omega) (by omega) (by omega)
    (by omega) (by omega)]
  by_cases hlt : x + y < P
  · simp [hlt]
  · simp [hlt]

theorem cast_val_self (x : F) : ((x.val : ℕ) : F) = x := ZMod.natCast_rightInverse x

theorem ctFieldAdd_field (x y : F) :
    ((ctFieldAdd (x.val : ℤ) (y.val : ℤ) (p : ℤ) (getBinSize (p - 1)) : ℤ) : F) = x + y := by
  have hx := ZMod.val_lt x
  have hy := ZMod.val_lt y
  have hPbig : 2 * (p : ℤ) < 2 ^ (258 - 1) := by norm_num [p]
  rw [getBinSize_p]
  rw [ctFieldAdd_spec 258 (by norm_num) _ _ _ (by exact_mod_cast p_pos) hPbig
    (by positivity) (by exact_mod_cast hx) (by positivity) (by exact_mod_cast hy)]
  by_cases hlt : (x.val : ℤ) + (y.val : ℤ) < (p : ℤ)
  · rw [if_pos hlt]
    push_cast
    rw [cast_val_self, cast_val_self]
  · rw [if_neg hlt]
    push_cast
    rw [cast_val_self, cast_val_self, ZMod.natCast_self]
    ring

/-- The constant-time matrix addition used in the sponge absorb path agrees
with plain field addition. -/
theorem ctVecAdd_eq (a b : List F) : ctVecAdd a b = vecAdd a b := by
  rw [ctVecAdd, vecAdd]
  simp only [ctFieldAdd_field]

/-! ### The sponge padding loop -/

theorem padLoop_closed (rate : ℕ) (hrate : 1 ≤ rate) :
    ∀ (fuel : ℕ) (l : List F), (rate - l.length % rate) % rate ≤ fuel →
      padLoop rate l fuel = l ++ List.replicate ((rate - l.length % rate) % rate) (0 : F) := by
  intro fuel
  induction fuel with
  | zero =>
      intro l hle
      have hk : (rate - l.length % rate) % rate = 0 := by omega
      rw [padLoop, hk]
      simp
  | succ f ih =>
      intro l hle
      rw [padLoop]
      by_cases hmod : l.length % rate = 0
      · rw [if_pos hmod, hmod, Nat.sub_zero, Nat.mod_self]
        simp
      · rw [if_neg hmod]
        have hrlt : l.length % rate < rate := Nat.mod_lt _ (by omega)
        have hrate2 : 2 ≤ rate := by
          by_contra hcon
          have h1 : rate = 1 := by omega
          rw [h1, Nat.mod_one] at hmod
          exact hmod rfl
        have hk : (rate - l.length % rate) % rate = rate - l.length % rate :=
          Nat.mod_eq_of_lt (by omega)
        have hlen' : (l ++ [(0 : F)]).length % rate = (l.length % rate + 1) % rate := by
          rw [List.length_append, List.length_singleton, Nat.add_mod,
            Nat.mod_eq_of_lt (show 1 < rate by omega)]
        have hk' : (rate - (l ++ [(0 : F)]).length % rate) % rate =
            (rate - l.length % rate) % rate - 1 := by
          rw [hlen', hk]
          by_cases hedge : l.length % rate + 1 = rate
          · rw [hedge, Nat.mod_self, Nat.sub_zero, Nat.mod_self]
            omega
          · have hlt : l.length % rate + 1 < rate := by omega
            rw [Nat.mod_eq_of_lt hlt, Nat.mod_eq_of_lt (by omega)]
            omega
        rw [ih (l ++ [(0 : F)]) (by rw [hk']; omega)]
        rw [hk', List.append_assoc]
        congr 1
        rw [hk] at *
        rw [show rate - l.length % rate = (rate - l.length % rate - 1) + 1 by omega]
        rw [List.replicate_succ]
        rfl

/-! ### Absorb-phase invariants -/

theorem vecAdd_zero_left : ∀ (v : List F) (n : ℕ), v.length = n →
    vecAdd (List.replicate n 0) v = v := by
  intro v
  induction v with
  | nil => intro n _; simp [vecAdd]
  | cons x t ih =>
      intro n hn
      cases n with
      | zero => simp at hn
      | succ k =>
          rw [List.replicate_succ]
          simp only [vecAdd, List.zipWith_cons_cons, zero_add]
          have := ih k (by simpa using hn)
          rw [vecAdd] at this
          rw [this]

theorem absorb_fold_length (d : RescueDescM) (hval : d.valid) :
    ∀ (blocks : List ℕ) (vecf : ℕ → List F) (state : List F),
      state.length = d.mval → (∀ b ∈ blocks, (vecf b).length = d.mval) →
      (blocks.foldl (fun st b => d.permute (ctVecAdd st (vecf b))) state).length = d.mval := by
  intro blocks
  induction blocks with
  | nil => intro vecf state hs _; simpa using hs
  | cons b t ih =>
      intro vecf state hs hv
      rw [List.foldl_cons]
      apply ih
      · apply permute_length d hval
        rw [ctVecAdd_eq, length_vecAdd, hs, hv b (by simp)]
        simp
      · exact fun b' hb' => hv b' (by simp [hb'])

theorem padLen_mod (rate : ℕ) (hrate : 1 ≤ rate) (n : ℕ) :
    (n + (rate - n % rate) % rate) % rate = 0 := by
  by_cases hmod : n % rate = 0
  · rw [hmod, Nat.sub_zero, Nat.mod_self, Nat.add_zero, hmod]
  · have hrlt : n % rate < rate := Nat.mod_lt _ (by omega)
    rw [Nat.mod_eq_of_lt (show rate - n % rate < rate by omega)]
    rw [Nat.add_mod, Nat.mod_eq_of_lt (show rate - n % rate < rate by omega)]
    rw [show n % rate + (rate - n % rate) = rate by omega, Nat.mod_self]

theorem digest_length (h : RescuePrimeHashM) (hval : h.desc.valid) (hrate : 1 ≤ h.rate)
    (hrm : h.rate ≤ h.desc.mval) (msg : List F) :
    (h.digest msg).length = min h.digestLength h.desc.mval := by
  rw [RescuePrimeHashM.digest, List.length_take]
  congr 1
  set padded := padLoop h.rate (msg ++ [1]) h.rate with hpadded
  have hperiodic : padded.length % h.rate = 0 := by
    rw [hpadded, padLoop_closed h.rate hrate h.rate (msg ++ [1])
      (le_of_lt (Nat.mod_lt _ (by omega)))]
    rw [List.length_append, List.length_replicate]
    exact padLen_mod h.rate hrate (msg ++ [1]).length
  apply absorb_fold_length h.desc hval
  · simp
  · intro b hb
    rw [List.mem_range] at hb
    rw [List.length_append, List.length_take, List.length_drop, List.length_replicate]
    have hble : (b + 1) * h.rate ≤ padded.length := by
      calc (b + 1) * h.rate ≤ (padded.length / h.rate) * h.rate :=
            Nat.mul_le_mul_right _ (by omega)
        _ = padded.length := Nat.div_mul_cancel (Nat.dvd_of_mod_eq_zero hperiodic)
    have : min h.rate (padded.length - b * h.rate) = h.rate := by
      rw [Nat.succ_mul] at hble
      omega
    rw [this]
    omega

/-! ### C6: sponge padding -/

/-- C6: `digest` pads every message with exactly one `ONE` followed by the
minimal number of `ZERO`s reaching a multiple of the rate (a message already
at a multiple of the rate gains a full extra block), and the empty message
digests to the first `digest_length` elements of the permutation of
`ONE` followed by zeros. -/
theorem C6_sponge_padding (h : RescuePrimeHashM) (hrate : 1 ≤ h.rate)
    (hm : h.desc.mval = h.rate + h.capacity) :
    (∀ message : List F,
      padLoop h.rate (message ++ [1]) h.rate =
        message ++ (1 : F) ::
          List.replicate ((h.rate - (message.length + 1) % h.rate) % h.rate) 0 ∧
      (message.length + 1 + (h.rate - (message.length + 1) % h.rate) % h.rate) % h.rate
        = 0 ∧
      (∀ k' < (h.rate - (message.length + 1) % h.rate) % h.rate,
        (message.length + 1 + k') % h.rate ≠ 0)) ∧
    h.digest [] =
      (h.desc.permute ((1 : F) :: List.replicate (h.desc.mval - 1) 0)).take
        h.digestLength := by
  have hlen1 : ∀ message : List F, (message ++ [(1 : F)]).length = message.length + 1 := by
    simp
  constructor
  · intro message
    have hclosed := padLoop_closed h.rate hrate h.rate (message ++ [1])
      (le_of_lt (Nat.mod_lt _ (by omega)))
    rw [hlen1] at hclosed
    refine ⟨by rw [hclosed, List.append_assoc]; rfl,
      padLen_mod h.rate hrate (message.length + 1), ?_⟩
    intro k' hk'
    by_cases hmod : (message.length + 1) % h.rate = 0
    · rw [hmod, Nat.sub_zero, Nat.mod_self] at hk'
      omega
    · have hrlt : (message.length + 1) % h.rate < h.rate :=
        Nat.mod_lt _ (by omega)
      rw [Nat.mod_eq_of_lt (show h.rate - (message.length + 1) % h.rate < h.rate
        by omega)] at hk'
      rw [Nat.add_mod (message.length + 1) k',
        Nat.mod_eq_of_lt (show k' < h.rate by omega),
        Nat.mod_eq_of_lt (show (message.length + 1) % h.rate + k' < h.rate by omega)]
      omega
  · rw [RescuePrimeHashM.digest]
    have hpad0 : padLoop h.rate ([] ++ [(1 : F)]) h.rate =
        (1 : F) :: List.replicate (h.rate - 1) 0 := by
      rw [padLoop_closed h.rate hrate h.rate _ (le_of_lt (Nat.mod_lt _ (by omega)))]
      have : (h.rate - [(1 : F)].length % h.rate) % h.rate = h.rate - 1 := by
        rw [List.length_singleton]
        by_cases hr1 : h.rate = 1
        · rw [hr1]
        · rw [Nat.mod_eq_of_lt (show 1 < h.rate by omega)]
          rw [Nat.mod_eq_of_lt (show h.rate - 1 < h.rate by omega)]
      rw [List.nil_append, this]
      rfl
    rw [hpad0]
    have hlenr : ((1 : F) :: List.replicate (h.rate - 1) 0).length = h.rate := by
      rw [List.length_cons, List.length_replicate]
      omega
    rw [hlenr, Nat.div_self (by omega), show List.range 1 = [0] from rfl,
      List.foldl_cons, List.foldl_nil]
    rw [Nat.zero_mul, List.drop_zero, List.take_of_length_le (le_of_eq hlenr)]
    have habsorb : ((1 : F) :: List.replicate (h.rate - 1) 0) ++
        List.replicate (h.desc.mval - h.rate) 0 =
        (1 : F) :: List.replicate (h.desc.mval - 1) 0 := by
      rw [List.cons_append, ← List.replicate_add]
      congr 2
      omega
    rw [habsorb]
    show List.take h.digestLength
        (h.desc.permute (ctVecAdd (List.replicate h.desc.mval 0)
          ((1 : F) :: List.replicate (h.desc.mval - 1) 0))) =
      List.take h.digestLength (h.desc.permute ((1 : F) :: List.replicate (h.desc.mval - 1) 0))
    rw [ctVecAdd_eq, vecAdd_zero_left _ _
      (by rw [List.length_cons, List.length_replicate]; omega)]

theorem C6_sponge_padding_witness :
    (padLoop 7 [(1 : F)] 7 = (1 : F) :: List.replicate 6 0 ∧ (1 + 6) % 7 = 0 ∧
      (∀ k' < 6, (1 + k') % 7 ≠ 0)) ∧
    (RescuePrimeHashM.mk 7 5 5 ⟨RescueMode.HashMode 12 5, 0,
      [List.replicate 12 0]⟩).digest [] =
      ((RescuePrimeHashM.mk 7 5 5 ⟨RescueMode.HashMode 12 5, 0,
        [List.replicate 12 0]⟩).desc.permute
          ((1 : F) :: List.replicate 11 0)).take 5 :=
  ⟨(C6_sponge_padding (RescuePrimeHashM.mk 7 5 5 ⟨RescueMode.HashMode 12 5, 0,
      [List.replicate 12 0]⟩) (by decide) (by decide)).1 [],
   (C6_sponge_padding (RescuePrimeHashM.mk 7 5 5 ⟨RescueMode.HashMode 12 5, 0,
      [List.replicate 12 0]⟩) (by decide) (by decide)).2⟩

/-! ### C5: cipher key derivation -/

/-- C5: for every 32-byte shared secret, `derive_key` succeeds and the
derived cipher key is the `RescuePrimeHash` (rate 7, capacity 5, digest
length 5) digest of the 3-element message `[Fp(1), Fp(z), Fp(5)]`, where
`z` is the secret read as a little-endian 256-bit integer; the key has 5
elements. -/
theorem C5_key_derivation (h : RescuePrimeHashM) (secret : List ℕ)
    (hrate : h.rate = RESCUE_HASH_RATE) (_hcap : h.capacity = RESCUE_HASH_CAPACITY)
    (hdig : h.digestLength = RESCUE_HASH_DIGEST_LENGTH)
    (hval : h.desc.valid) (hm : h.desc.mval = RESCUE_HASH_STATE_SIZE)
    (hsec : secret.length = 32) :
    deriveKeyE h secret =
      Except.ok (h.digest [(1 : F), ((leVal secret : ℕ) : F), (5 : F)]) ∧
    (deriveKeyRaw h secret).length = 5 := by
  constructor
  · rw [deriveKeyE, if_neg (by simp [RESCUE_CIPHER_SECRET_SIZE, hsec])]
    rw [deriveKeyRaw]
    congr 2
  · rw [deriveKeyRaw]
    rw [digest_length h hval
      (by rw [hrate]; norm_num [RESCUE_HASH_RATE])
      (by rw [hrate, hm]
          norm_num [RESCUE_HASH_RATE, RESCUE_HASH_STATE_SIZE, RESCUE_HASH_CAPACITY])]
    rw [hdig, hm]
    norm_num [RESCUE_HASH_DIGEST_LENGTH, RESCUE_HASH_STATE_SIZE, RESCUE_HASH_RATE,
      RESCUE_HASH_CAPACITY]

theorem C5_key_derivation_witness :
    deriveKeyE (RescuePrimeHashM.mk 7 5 5 ⟨RescueMode.HashMode 12 5, 0,
      [List.replicate 12 0]⟩) (List.replicate 32 1) =
      Except.ok ((RescuePrimeHashM.mk 7 5 5 ⟨RescueMode.HashMode 12 5, 0,
        [List.replicate 12 0]⟩).digest
          [(1 : F), ((leVal (List.replicate 32 1) : ℕ) : F), (5 : F)]) ∧
    (deriveKeyRaw (RescuePrimeHashM.mk 7 5 5 ⟨RescueMode.HashMode 12 5, 0,
      [List.replicate 12 0]⟩) (List.replicate 32 1)).length = 5 :=
  C5_key_derivation (RescuePrimeHashM.mk 7 5 5 ⟨RescueMode.HashMode 12 5, 0,
      [List.replicate 12 0]⟩) (List.replicate 32 1)
    (by decide) (by decide) (by decide)
    ⟨by decide, by decide, by decide, by decide⟩ (by decide) (by decide)

/-! ### C3: the inverse round schedule -/

theorem rescuePermutationInverseGo_length (mdsInv : List (List F)) (eE eO : ℕ) :
    ∀ (ks : List (List F)) (s : List F) (r : ℕ),
      (rescuePermutationInverseGo mdsInv eE eO s r ks).length = ks.length + 1 := by
  intro ks
  induction ks with
  | nil => intro s r; rfl
  | cons k t ih => intro s r; simp [rescuePermutationInverseGo, ih]

theorem getD_append_singleton (l : List (List F)) (x : List F) :
    (l ++ [x]).getD l.length [] = x := by
  induction l with
  | nil => rfl
  | cons a t ih =>
      simp only [List.cons_append, List.length_cons, List.getD_cons_succ]
      exact ih

/-- The last entry of the inverse round loop equals an indexed fold over
the round counter. -/
theorem invGo_last_eq_rangeFold (mdsInv : List (List F)) (eE eO : ℕ) :
    ∀ (l : List (List F)) (s : List F) (r0 : ℕ) (w : List F),
      (rescuePermutationInverseGo mdsInv eE eO s r0 l).getLastD w =
      (List.range l.length).foldl
        (fun u i => vecPow (matMulVec mdsInv (vecSub u (l.getD i [])))
          (if (r0 + i) % 2 = 0 then eE else eO)) s := by
  intro l
  induction l with
  | nil => intro s r0 w; rfl
  | cons k t ih =>
      intro s r0 w
      rw [rescuePermutationInverseGo, List.getLastD_cons]
      rw [ih _ (r0 + 1) s]
      rw [List.length_cons, List.range_succ_eq_map, List.foldl_cons, List.foldl_map]
      have hzero : (List.getD (k :: t) 0 []) = k := rfl
      rw [hzero, Nat.add_zero]
      apply List.foldl_ext
      intro u i _
      have hidx : r0 + 1 + i = r0 + (i + 1) := by omega
      simp only [List.getD_cons_succ, Nat.succ_eq_add_one, hidx]

/-- C3 as stated by the spec is false: the code's inverse permutation does
not use the reversed parity assignment.  Concretely, in cipher mode with a
single round and state `[2]`, the code raises to `α⁻¹` on the (even) round
0 and yields `[[2^α⁻¹], [2^α⁻¹]]`, while the spec's description yields
`[[2^5], [2^5]] = [[32], [32]]`. -/
theorem C3_counterexample :
    rescuePermutationInverse (RescueMode.CipherMode [1, 1]) 5 alphaInvVal [[1]]
      [[0], [0]] [2] ≠
    specRescuePermutationInverse (RescueMode.CipherMode [1, 1]) 5 alphaInvVal [[1]]
      [[0], [0]] [2] := by
  have hcode : rescuePermutationInverse (RescueMode.CipherMode [1, 1]) 5 alphaInvVal [[1]]
      [[0], [0]] [2] = [[(2 : F) ^ alphaInvVal], [(2 : F) ^ alphaInvVal]] := by
    simp [rescuePermutationInverse, rescuePermutationInverseGo, exponentForEven,
      exponentForOdd, vecSub, vecPow, matMulVec, dotProd]
  have hspec : specRescuePermutationInverse (RescueMode.CipherMode [1, 1]) 5 alphaInvVal [[1]]
      [[0], [0]] [2] = [[(2 : F) ^ (5 : ℕ)], [(2 : F) ^ (5 : ℕ)]] := by
    simp [specRescuePermutationInverse, rescuePermutationInverseGo, exponentForEven,
      exponentForOdd, vecSub, vecPow, matMulVec, dotProd]
  rw [hcode, hspec]
  intro hcontra
  have hd : (2 : F) ^ alphaInvVal = (2 : F) ^ (5 : ℕ) := by
    have := List.head_eq_of_cons_eq hcontra
    exact List.head_eq_of_cons_eq this
  have h2 : ((2 : F) ^ alphaInvVal) ^ (5 : ℕ) = ((2 : F) ^ (5 : ℕ)) ^ (5 : ℕ) := by
    rw [hd]
  rw [sbox_cancel_de] at h2
  have : ((2 : F) ^ (5 : ℕ)) ^ (5 : ℕ) = (33554432 : F) := by decide
  rw [this] at h2
  exact absurd h2 (by decide)

/-- C3 amended: in the inverse permutation, round `r` raises to
`e' = (r even) ? α⁻¹ : α` in cipher mode and `e' = (r even) ? α : α⁻¹` in
hash mode — the same parity assignment as the forward pass, not the
reversed one — applied as `u_{r+1} = (M⁻¹ · (u_r - K_{2N-r}))^{e'}` with
final result `u_{2N} - K₀`. -/
theorem C3_inverse_schedule_amended (mode : RescueMode) (alpha alphaInverse : ℕ)
    (mdsInv : List (List F)) (subkeys : List (List F)) (state : List F)
    (h : subkeys ≠ []) :
    (rescuePermutationInverse mode alpha alphaInverse mdsInv subkeys state).getD
      (subkeys.length - 1) [] =
    amendedRescuePermutationInverse mode alpha alphaInverse mdsInv subkeys state := by
  obtain ⟨k0, ks, rfl⟩ : ∃ k0 ks, subkeys = k0 :: ks := by
    cases subkeys with
    | nil => exact absurd rfl h
    | cons a t => exact ⟨a, t, rfl⟩
  simp only [rescuePermutationInverse]
  have hlenGo : (rescuePermutationInverseGo mdsInv
      (exponentForEven mode alpha alphaInverse)
      (exponentForOdd mode alpha alphaInverse) state 0 ks.reverse).length =
      ks.length + 1 := by
    rw [rescuePermutationInverseGo_length, List.length_reverse]
  have htaillen : (rescuePermutationInverseGo mdsInv
      (exponentForEven mode alpha alphaInverse)
      (exponentForOdd mode alpha alphaInverse) state 0 ks.reverse).tail.length =
      ks.length := by
    rw [List.length_tail, hlenGo]
    omega
  rw [show (k0 :: ks).length - 1 = ks.length by rw [List.length_cons]; omega, ← htaillen]
  rw [getD_append_singleton]
  rw [amendedRescuePermutationInverse]
  congr 1
  rw [invGo_last_eq_rangeFold, List.length_reverse]
  rw [show (k0 :: ks).length - 1 = ks.length by rw [List.length_cons]; omega]
  apply List.foldl_ext
  intro u i hi
  rw [List.mem_range] at hi
  have hkey : ks.reverse.getD i [] = (k0 :: ks).getD (ks.length - i) [] := by
    have h2 : i < ks.reverse.length := by rw [List.length_reverse]; omega
    rw [List.getD_eq_getElem _ _ h2]
    rw [show ks.length - i = (ks.length - 1 - i) + 1 by omega]
    rw [List.getD_cons_succ]
    rw [List.getD_eq_getElem _ _ (show ks.length - 1 - i < ks.length by omega)]
    rw [List.getElem_reverse]
  rw [Nat.zero_add, hkey]

theorem C3_inverse_schedule_amended_witness :
    (([[0], [0]] : List (List F)) ≠ []) ∧
    (rescuePermutationInverse (RescueMode.HashMode 2 1) 3 7 [[1]] [[0], [0]] [2]).getD
      (([[0], [0]] : List (List F)).length - 1) [] =
    amendedRescuePermutationInverse (RescueMode.HashMode 2 1) 3 7 [[1]] [[0], [0]] [2] :=
  ⟨by decide, C3_inverse_schedule_amended (RescueMode.HashMode 2 1) 3 7 [[1]] [[0], [0]] [2]
    (by decide)⟩

/-! ### C2 part 1: the round trip, given that the MDS matrices invert -/

theorem vecSub_vecAdd_cancel :
    ∀ (x k : List F), x.length ≤ k.length → vecSub (vecAdd x k) k = x := by
  intro x
  induction x with
  | nil => intro k _; simp [vecAdd, vecSub]
  | cons a t ih =>
      intro k h
      cases k with
      | nil => simp at h
      | cons b t₂ =>
          simp only [vecAdd, vecSub, List.zipWith_cons_cons, add_sub_cancel_right,
            List.cons.injEq, true_and]
          exact ih t₂ (by simpa using h)

theorem vecPow_vecPow_cancel (e1 e2 : ℕ) (h : ∀ x : F, (x ^ e1) ^ e2 = x) (v : List F) :
    vecPow (vecPow v e1) e2 = v := by
  rw [vecPow, vecPow, List.map_map]
  conv_rhs => rw [← List.map_id v]
  apply List.map_congr_left
  intro x _
  exact h x

theorem fwdGo_last_append (mds : List (List F)) (eE eO : ℕ) :
    ∀ (t : List (List F)) (k : List F) (s : List F) (a : ℕ) (w : List F),
      (rescuePermutationGo mds eE eO s a (t ++ [k])).getLastD w =
      vecAdd (matMulVec mds (vecPow ((rescuePermutationGo mds eE eO s a t).getLastD w)
        (if (a + t.length) % 2 = 0 then eE else eO))) k := by
  intro t
  induction t with
  | nil =>
      intro k s a w
      simp [rescuePermutationGo]
  | cons h t' ih =>
      intro k s a w
      rw [List.cons_append, rescuePermutationGo, List.getLastD_cons, ih]
      rw [show rescuePermutationGo mds eE eO s a (h :: t') =
        s :: rescuePermutationGo mds eE eO
          (vecAdd (matMulVec mds (vecPow s (if a % 2 = 0 then eE else eO))) h) (a + 1) t'
        from rfl]
      rw [List.getLastD_cons]
      congr 3
      rw [List.length_cons]
      rw [show a + 1 + t'.length = a + (t'.length + 1) from by omega]

theorem fwdGo_last_length (mds : List (List F)) (eE eO : ℕ) (m : ℕ) (hmds : mds.length = m) :
    ∀ (t : List (List F)) (s : List F) (a : ℕ) (w : List F),
      s.length = m → (∀ k ∈ t, k.length = m) →
      ((rescuePermutationGo mds eE eO s a t).getLastD w).length = m := by
  intro t
  induction t with
  | nil => intro s a w hs _; simpa [rescuePermutationGo] using hs
  | cons h t' ih =>
      intro s a w hs hk
      rw [rescuePermutationGo, List.getLastD_cons]
      apply ih
      · rw [length_vecAdd, length_matMulVec, hmds, hk h (by simp)]
        simp
      · exact fun k' hk' => hk k' (by simp [hk'])

theorem invGo_fwdGo_cancel (mds mdsInv : List (List F)) (m eE eO : ℕ)
    (hmds : mds.length = m)
    (hinv : ∀ v : List F, v.length = m → matMulVec mdsInv (matMulVec mds v) = v)
    (hEO : ∀ x : F, (x ^ eE) ^ eO = x) (hOE : ∀ x : F, (x ^ eO) ^ eE = x) :
    ∀ (ks : List (List F)) (s : List F) (a b : ℕ) (w w' : List F),
      (a + b + ks.length) % 2 = 0 → s.length = m → (∀ k ∈ ks, k.length = m) →
      (rescuePermutationInverseGo mdsInv eE eO
        ((rescuePermutationGo mds eE eO s a ks).getLastD w) b ks.reverse).getLastD w' = s := by
  intro ks
  induction ks using List.reverseRecOn with
  | nil => intro s a b w w' _ _ _; rfl
  | append_singleton t k ih =>
      intro s a b w w' hpar hs hkt
      rw [fwdGo_last_append]
      rw [show (t ++ [k]).reverse = k :: t.reverse by simp]
      rw [rescuePermutationInverseGo, List.getLastD_cons]
      have hkm : k.length = m := hkt k (by simp)
      have htm : ∀ k' ∈ t, k'.length = m := fun k' hk' => hkt k' (by simp [hk'])
      have hLlen : ((rescuePermutationGo mds eE eO s a t).getLastD w).length = m :=
        fwdGo_last_length mds eE eO m hmds t s a w hs htm
      have hsub : vecSub (vecAdd (matMulVec mds
          (vecPow ((rescuePermutationGo mds eE eO s a t).getLastD w)
            (if (a + t.length) % 2 = 0 then eE else eO))) k) k =
          matMulVec mds (vecPow ((rescuePermutationGo mds eE eO s a t).getLastD w)
            (if (a + t.length) % 2 = 0 then eE else eO)) := by
        apply vecSub_vecAdd_cancel
        rw [length_matMulVec, hmds, hkm]
      rw [hsub]
      rw [hinv _ (by rw [length_vecPow, hLlen])]
      have hcancel : vecPow (vecPow ((rescuePermutationGo mds eE eO s a t).getLastD w)
          (if (a + t.length) % 2 = 0 then eE else eO)) (if b % 2 = 0 then eE else eO) =
          (rescuePermutationGo mds eE eO s a t).getLastD w := by
        rcases Nat.even_or_odd (a + t.length) with hev | hod
        · have h1 : (a + t.length) % 2 = 0 := Nat.even_iff.mp hev
          have h2 : ¬ b % 2 = 0 := by
            rw [List.length_append, List.length_singleton] at hpar
            omega
          rw [if_pos h1, if_neg h2]
          exact vecPow_vecPow_cancel eE eO hEO _
        · have h1 : ¬ (a + t.length) % 2 = 0 := by
            rw [Nat.odd_iff] at hod
            omega
          have h2 : b % 2 = 0 := by
            rw [Nat.odd_iff] at hod
            rw [List.length_append, List.length_singleton] at hpar
            omega
          rw [if_neg h1, if_pos h2]
          exact vecPow_vecPow_cancel eO eE hOE _
      rw [hcancel]
      apply ih
      · rw [List.length_append, List.length_singleton] at hpar
        omega
      · exact hs
      · exact htm

/-! ### C2 part 2: the closed-form Cauchy inverse

First the bridges from the code's list folds to `Finset` products. -/

theorem natCast_inj_small (a b : ℕ) (ha : a < p) (hb : b < p) :
    ((a : F) = (b : F)) ↔ a = b := by
  rw [ZMod.natCast_eq_natCast_iff']
  rw [Nat.mod_eq_of_lt ha, Nat.mod_eq_of_lt hb]

theorem natCast_ne_zero_small (a : ℕ) (h0 : 0 < a) (ha : a < p) : (a : F) ≠ 0 := by
  intro h
  have : ((a : ℕ) : F) = ((0 : ℕ) : F) := by simpa using h
  rw [natCast_inj_small a 0 ha p_pos] at this
  omega

theorem listProd_range (f : ℕ → F) :
    ∀ n : ℕ, ((List.range n).map f).prod = ∏ k in Finset.range n, f k := by
  intro n
  induction n with
  | zero => rfl
  | succ n ih =>
      rw [List.range_succ, List.map_append, List.prod_append, Finset.prod_range_succ, ih]
      simp

theorem intProd_eq (l : List ℤ) : intProd l = (l.map (fun v : ℤ => ((v : ℤ) : F))).prod := by
  rw [List.prod_eq_foldl, List.foldl_map]
  rfl

theorem primeProduct_go (e : ℤ) :
    ∀ (l : List ℤ) (acc : F),
      l.foldl (fun acc u => if u = e then acc else acc * ((e - u : ℤ) : F)) acc =
      acc * (l.map (fun u => if u = e then (1 : F) else ((e - u : ℤ) : F))).prod := by
  intro l
  induction l with
  | nil => intro acc; simp
  | cons u t ih =>
      intro acc
      rw [List.foldl_cons, ih, List.map_cons, List.prod_cons]
      by_cases h : u = e
      · rw [if_pos h, if_pos h, one_mul]
      · rw [if_neg h, if_neg h, mul_assoc]

theorem primeProduct_eq (l : List ℤ) (e : ℤ) :
    primeProduct l e = (l.map (fun u => if u = e then (1 : F) else ((e - u : ℤ) : F))).prod := by
  rw [primeProduct, primeProduct_go, one_mul]

theorem getD_map_range {α : Type} (f : ℕ → α) (d : α) (n k : ℕ) (hk : k < n) :
    ((List.range n).map f).getD k d = f k := by
  rw [List.getD_eq_getElem _ _ (by simpa using hk)]
  simp

/-- The entry `(i, j)` (0-based) that `build_inverse_cauchy_matrix` computes
from `a`, `a'`, `b`, `b'` and the denominator, in sign-normalised form:
`φ(i) φ(j) / (ψ(j) ψ(i) (i + j + 2))`. -/
theorem invEntryBody (m i j : ℕ) (hi : i < m) (hj : j < m) :
    intProd ((List.range m).map (fun k : ℕ => -((i : ℤ) + 1) - ((k : ℤ) + 1))) *
      intProd ((List.range m).map (fun k : ℕ => ((j : ℤ) + 1) + ((k : ℤ) + 1))) *
      (primeProduct ((List.range m).map (fun k : ℕ => (k : ℤ) + 1)) ((j : ℤ) + 1) *
        primeProduct ((List.range m).map (fun k : ℕ => -((k : ℤ) + 1))) (-((i : ℤ) + 1)) *
        ((-((i : ℤ) + 1) - ((j : ℤ) + 1) : ℤ) : F))⁻¹ =
    phiF m i * phiF m j * (psiF m j * psiF m i * ((i + j + 2 : ℕ) : F))⁻¹ := by
  rw [intProd_eq, intProd_eq, primeProduct_eq, primeProduct_eq]
  rw [List.map_map, List.map_map, List.map_map, List.map_map]
  rw [listProd_range, listProd_range, listProd_range, listProd_range]
  simp only [Function.comp]
  have ha : ∏ k in Finset.range m, ((-((i : ℤ) + 1) - ((k : ℤ) + 1) : ℤ) : F) =
      (-1) ^ m * phiF m i := by
    have hpow : ((-1 : F)) ^ m = ∏ _x in Finset.range m, (-1 : F) := by
      rw [Finset.prod_const, Finset.card_range]
    rw [phiF, hpow, ← Finset.prod_mul_distrib]
    apply Finset.prod_congr rfl
    intro k _
    push_cast
    ring
  have hb : ∏ k in Finset.range m, ((((j : ℤ) + 1) + ((k : ℤ) + 1) : ℤ) : F) = phiF m j := by
    rw [phiF]
    apply Finset.prod_congr rfl
    intro k _
    push_cast
    ring
  have haP : ∏ k in Finset.range m,
      (if ((k : ℤ) + 1) = ((j : ℤ) + 1) then (1 : F)
       else ((((j : ℤ) + 1) - ((k : ℤ) + 1) : ℤ) : F)) = psiF m j := by
    rw [psiF, ← Finset.prod_erase (Finset.range m)
      (show (if ((j : ℤ) + 1) = ((j : ℤ) + 1) then (1 : F)
        else ((((j : ℤ) + 1) - ((j : ℤ) + 1) : ℤ) : F)) = 1 from if_pos rfl)]
    apply Finset.prod_congr rfl
    intro k hk
    have hkj : k ≠ j := (Finset.mem_erase.mp hk).1
    rw [if_neg (by intro h; exact hkj (by omega))]
    rw [nodeF, nodeF]
    push_cast
    ring
  have hbP : ∏ k in Finset.range m,
      (if -((k : ℤ) + 1) = -((i : ℤ) + 1) then (1 : F)
       else ((-((i : ℤ) + 1) - -((k : ℤ) + 1) : ℤ) : F)) = (-1) ^ (m - 1) * psiF m i := by
    rw [psiF, ← Finset.prod_erase (Finset.range m)
      (show (if -((i : ℤ) + 1) = -((i : ℤ) + 1) then (1 : F)
        else ((-((i : ℤ) + 1) - -((i : ℤ) + 1) : ℤ) : F)) = 1 from if_pos rfl)]
    rw [show m - 1 = ((Finset.range m).erase i).card from by
      rw [Finset.card_erase_of_mem (Finset.mem_range.mpr hi), Finset.card_range]]
    rw [← Finset.prod_const (-1 : F), ← Finset.prod_mul_distrib]
    apply Finset.prod_congr rfl
    intro k hk
    have hki : k ≠ i := (Finset.mem_erase.mp hk).1
    rw [if_neg (by intro h; exact hki (by omega))]
    rw [nodeF, nodeF]
    push_cast
    ring
  rw [ha, hb, haP, hbP]
  have hdd : ((-((i : ℤ) + 1) - ((j : ℤ) + 1) : ℤ) : F) = -((i + j + 2 : ℕ) : F) := by
    push_cast
    ring
  rw [hdd]
  have hm1 : 1 ≤ m := by omega
  have hsgn : psiF m j * ((-1 : F) ^ (m - 1) * psiF m i) * -((i + j + 2 : ℕ) : F) =
      (-1 : F) ^ m * (psiF m j * psiF m i * ((i + j + 2 : ℕ) : F)) := by
    rw [show (-1 : F) ^ m = (-1 : F) ^ (m - 1) * (-1) from by
      rw [← pow_succ]
      congr 1
      omega]
    ring
  rw [hsgn, mul_inv]
  have hm0 : ((-1 : F)) ^ m ≠ 0 := pow_ne_zero m (by norm_num)
  calc (-1 : F) ^ m * phiF m i * phiF m j *
        (((-1 : F) ^ m)⁻¹ * (psiF m j * psiF m i * ((i + j + 2 : ℕ) : F))⁻¹)
      = ((-1 : F) ^ m * ((-1 : F) ^ m)⁻¹) *
        (phiF m i * phiF m j * (psiF m j * psiF m i * ((i + j + 2 : ℕ) : F))⁻¹) := by ring
    _ = phiF m i * phiF m j * (psiF m j * psiF m i * ((i + j + 2 : ℕ) : F))⁻¹ := by
        rw [mul_inv_cancel₀ hm0, one_mul]

/-! ### C2 part 3: Lagrange interpolation and the interpolation nodes -/

theorem nodal_monic (S : Finset ℕ) :
    (∏ l in S, (Polynomial.X + Polynomial.C (nodeF l))).Monic :=
  Polynomial.monic_prod_of_monic S _ (fun l _ => Polynomial.monic_X_add_C (nodeF l))

theorem nodal_natDegree (S : Finset ℕ) :
    (∏ l in S, (Polynomial.X + Polynomial.C (nodeF l))).natDegree = S.card := by
  rw [Polynomial.natDegree_prod_of_monic S _ (fun l _ => Polynomial.monic_X_add_C (nodeF l))]
  simp [Polynomial.natDegree_X_add_C]

theorem nodal_eval (S : Finset ℕ) (x : F) :
    (∏ l in S, (Polynomial.X + Polynomial.C (nodeF l))).eval x = ∏ l in S, (x + nodeF l) := by
  rw [Polynomial.eval_prod]
  simp

theorem basis_coeff_nodal {s : Finset ℕ} {v : ℕ → F} (hvs : Set.InjOn v s) {i : ℕ}
    (hi : i ∈ s) :
    (Lagrange.basis s v i).coeff (s.card - 1) = (∏ j in s.erase i, (v i - v j))⁻¹ := by
  rw [← Lagrange.natDegree_basis hvs hi]
  rw [show (Lagrange.basis s v i).coeff (Lagrange.basis s v i).natDegree =
    (Lagrange.basis s v i).leadingCoeff from rfl]
  rw [Lagrange.basis, Polynomial.leadingCoeff_prod]
  rw [← Finset.prod_inv_distrib]
  apply Finset.prod_congr rfl
  intro j _
  rw [Lagrange.basisDivisor, Polynomial.leadingCoeff_mul, Polynomial.leadingCoeff_C,
    (Polynomial.monic_X_sub_C (v j)).leadingCoeff, mul_one]

/-- Summing `Q(v i) / ∏_{j ≠ i} (v i − v j)` over all nodes extracts the
coefficient of degree `|s| − 1` of any polynomial `Q` of degree `< |s|`. -/
theorem lagrange_coeff_sum {s : Finset ℕ} {v : ℕ → F} (hvs : Set.InjOn v s)
    (Q : Polynomial F) (hQ : Q.degree < s.card) :
    ∑ i in s, Q.eval (v i) * (∏ j in s.erase i, (v i - v j))⁻¹ = Q.coeff (s.card - 1) := by
  conv_rhs => rw [Lagrange.eq_interpolate hvs hQ]
  rw [Lagrange.interpolate_apply, Polynomial.finset_sum_coeff]
  apply Finset.sum_congr rfl
  intro i hi
  rw [Polynomial.coeff_C_mul, basis_coeff_nodal hvs hi]

theorem node_ne (m : ℕ) (hmp : 2 * m < p) (k l : ℕ) (hk : k < m) (hl : l < m)
    (hne : k ≠ l) : nodeF k ≠ nodeF l := by
  intro h
  rw [nodeF, nodeF, natCast_inj_small _ _ (by omega) (by omega)] at h
  omega

theorem nodeF_injOn (m : ℕ) (hmp : 2 * m < p) :
    Set.InjOn nodeF (Finset.range m) := by
  intro a ha b hb h
  by_contra hne
  exact node_ne m hmp a b (by simpa using ha) (by simpa using hb) hne h

theorem node_add_ne_zero (m : ℕ) (hmp : 2 * m < p) (k l : ℕ) (hk : k < m) (hl : l < m) :
    nodeF k + nodeF l ≠ 0 := by
  rw [nodeF, nodeF, ← Nat.cast_add]
  exact natCast_ne_zero_small _ (by omega) (by omega)

theorem node_add_eq (i k : ℕ) : ((i + k + 2 : ℕ) : F) = nodeF i + nodeF k := by
  rw [nodeF, nodeF]
  push_cast
  ring

theorem psiF_ne_zero (m : ℕ) (hmp : 2 * m < p) (k : ℕ) (hk : k < m) : psiF m k ≠ 0 := by
  rw [psiF, Finset.prod_ne_zero_iff]
  intro l hl
  have hlm : l < m := Finset.mem_range.mp (Finset.mem_erase.mp hl).2
  have hlk : l ≠ k := (Finset.mem_erase.mp hl).1
  exact sub_ne_zero.mpr (node_ne m hmp k l hk hlm (fun h => hlk h.symm))

theorem phiF_ne_zero (m : ℕ) (hmp : 2 * m < p) (i : ℕ) (hi : i < m) : phiF m i ≠ 0 := by
  rw [phiF, Finset.prod_ne_zero_iff]
  intro l hl
  have hlm : l < m := Finset.mem_range.mp hl
  exact natCast_ne_zero_small _ (by omega) (by omega)

theorem phiF_eval (m k : ℕ) :
    phiF m k =
      (∏ l in Finset.range m, (Polynomial.X + Polynomial.C (nodeF l))).eval (nodeF k) := by
  rw [nodal_eval, phiF]
  apply Finset.prod_congr rfl
  intro l _
  exact node_add_eq k l

/-! ### C2 part 4: the row-by-column sums of the two Cauchy matrices -/

theorem cancel_offdiag (t u w a b E : F) (ha : a ≠ 0) (hb : b ≠ 0) :
    t * (a * (b * E)) * (w * u * a)⁻¹ * b⁻¹ = t * u⁻¹ * (E * w⁻¹) := by
  rw [mul_inv, mul_inv]
  calc t * (a * (b * E)) * (w⁻¹ * u⁻¹ * a⁻¹) * b⁻¹
      = (a * a⁻¹) * ((b * b⁻¹) * (t * u⁻¹ * (E * w⁻¹))) := by ring
    _ = t * u⁻¹ * (E * w⁻¹) := by
        rw [mul_inv_cancel₀ ha, mul_inv_cancel₀ hb, one_mul, one_mul]

theorem cancel_diag (t u w a E : F) (ha : a ≠ 0) :
    t * (a * E) * (w * u * a)⁻¹ * a⁻¹ = t * u⁻¹ * (E * (a * w)⁻¹) := by
  rw [show (w * u * a)⁻¹ = w⁻¹ * u⁻¹ * a⁻¹ from by rw [mul_inv, mul_inv],
    show (a * w)⁻¹ = a⁻¹ * w⁻¹ from mul_inv a w]
  calc t * (a * E) * (w⁻¹ * u⁻¹ * a⁻¹) * a⁻¹
      = (a * a⁻¹) * (t * u⁻¹ * (E * (a⁻¹ * w⁻¹))) := by ring
    _ = t * u⁻¹ * (E * (a⁻¹ * w⁻¹)) := by rw [mul_inv_cancel₀ ha, one_mul]

/-- Off-diagonal case: row `i` of the closed-form inverse against column
`j ≠ i` of the Cauchy matrix sums to `0`. -/
theorem cauchy_sum_off_diag (m : ℕ) (hmp : 2 * m < p) (i j : ℕ) (hi : i < m) (hj : j < m)
    (hij : i ≠ j) :
    ∑ k in Finset.range m,
      phiF m i * phiF m k * (psiF m k * psiF m i * ((i + k + 2 : ℕ) : F))⁻¹ *
        ((k + j + 2 : ℕ) : F)⁻¹ = 0 := by
  have hji : j ∈ (Finset.range m).erase i :=
    Finset.mem_erase.mpr ⟨fun h => hij h.symm, Finset.mem_range.mpr hj⟩
  have hfact : (∏ l in Finset.range m, (Polynomial.X + Polynomial.C (nodeF l))) =
      (Polynomial.X + Polynomial.C (nodeF i)) * ((Polynomial.X + Polynomial.C (nodeF j)) *
        ∏ l in ((Finset.range m).erase i).erase j,
          (Polynomial.X + Polynomial.C (nodeF l))) := by
    calc (∏ l in Finset.range m, (Polynomial.X + Polynomial.C (nodeF l)))
        = (Polynomial.X + Polynomial.C (nodeF i)) *
          ∏ l in (Finset.range m).erase i, (Polynomial.X + Polynomial.C (nodeF l)) :=
          (Finset.mul_prod_erase _ _ (Finset.mem_range.mpr hi)).symm
      _ = (Polynomial.X + Polynomial.C (nodeF i)) *
          ((Polynomial.X + Polynomial.C (nodeF j)) *
            ∏ l in ((Finset.range m).erase i).erase j,
              (Polynomial.X + Polynomial.C (nodeF l))) :=
          congrArg (fun q => (Polynomial.X + Polynomial.C (nodeF i)) * q)
            (Finset.mul_prod_erase _ _ hji).symm
  have hterm : ∀ k ∈ Finset.range m,
      phiF m i * phiF m k * (psiF m k * psiF m i * ((i + k + 2 : ℕ) : F))⁻¹ *
        ((k + j + 2 : ℕ) : F)⁻¹ =
      phiF m i * (psiF m i)⁻¹ *
        ((∏ l in ((Finset.range m).erase i).erase j,
          (Polynomial.X + Polynomial.C (nodeF l))).eval (nodeF k) * (psiF m k)⁻¹) := by
    intro k hk
    have hkm : k < m := Finset.mem_range.mp hk
    have hphik : phiF m k = (nodeF k + nodeF i) * ((nodeF k + nodeF j) *
        (∏ l in ((Finset.range m).erase i).erase j,
          (Polynomial.X + Polynomial.C (nodeF l))).eval (nodeF k)) := by
      rw [phiF_eval m k, hfact]
      simp [Polynomial.eval_mul, Polynomial.eval_add]
    rw [hphik, node_add_eq i k, node_add_eq k j,
      show nodeF i + nodeF k = nodeF k + nodeF i from add_comm _ _]
    exact cancel_offdiag _ _ _ _ _ _ (node_add_ne_zero m hmp k i hkm hi)
      (node_add_ne_zero m hmp k j hkm hj)
  rw [Finset.sum_congr rfl hterm, ← Finset.mul_sum]
  have hm2 : 2 ≤ m := by omega
  have hQmonic : (∏ l in ((Finset.range m).erase i).erase j,
      (Polynomial.X + Polynomial.C (nodeF l))).Monic := nodal_monic _
  have hQdeg : (∏ l in ((Finset.range m).erase i).erase j,
      (Polynomial.X + Polynomial.C (nodeF l))).natDegree = m - 2 := by
    rw [nodal_natDegree, Finset.card_erase_of_mem hji,
      Finset.card_erase_of_mem (Finset.mem_range.mpr hi), Finset.card_range]
    omega
  have hsum := @lagrange_coeff_sum (Finset.range m) nodeF (nodeF_injOn m hmp)
    (∏ l in ((Finset.range m).erase i).erase j, (Polynomial.X + Polynomial.C (nodeF l)))
    (by
      rw [Polynomial.degree_eq_natDegree hQmonic.ne_zero, hQdeg, Finset.card_range]
      exact_mod_cast (show m - 2 < m by omega))
  have hre : ∀ k : ℕ, (∏ l in (Finset.range m).erase k, (nodeF k - nodeF l)) = psiF m k :=
    fun k => rfl
  simp only [hre, Finset.card_range] at hsum
  rw [hsum, Polynomial.coeff_eq_zero_of_natDegree_lt (by rw [hQdeg]; omega), mul_zero]

/-- Diagonal case: row `i` of the closed-form inverse against column `i` of
the Cauchy matrix sums to `1`.  Q is interpolated over the `m` real nodes
plus the extra node `-ν i`. -/
theorem cauchy_sum_diag (m : ℕ) (hmp : 2 * m < p) (i : ℕ) (hi : i < m) :
    ∑ k in Finset.range m,
      phiF m i * phiF m k * (psiF m k * psiF m i * ((i + k + 2 : ℕ) : F))⁻¹ *
        ((k + i + 2 : ℕ) : F)⁻¹ = 1 := by
  have hm1 : 1 ≤ m := by omega
  have hmem : i ∈ Finset.range m := Finset.mem_range.mpr hi
  have hφ : phiF m i ≠ 0 := phiF_ne_zero m hmp i hi
  have hψ : psiF m i ≠ 0 := psiF_ne_zero m hmp i hi
  have hfact : (∏ l in Finset.range m, (Polynomial.X + Polynomial.C (nodeF l))) =
      (Polynomial.X + Polynomial.C (nodeF i)) *
        ∏ l in (Finset.range m).erase i, (Polynomial.X + Polynomial.C (nodeF l)) :=
    (Finset.mul_prod_erase _ _ hmem).symm
  have hterm : ∀ k ∈ Finset.range m,
      phiF m i * phiF m k * (psiF m k * psiF m i * ((i + k + 2 : ℕ) : F))⁻¹ *
        ((k + i + 2 : ℕ) : F)⁻¹ =
      phiF m i * (psiF m i)⁻¹ *
        ((∏ l in (Finset.range m).erase i,
          (Polynomial.X + Polynomial.C (nodeF l))).eval (nodeF k) *
          ((nodeF k + nodeF i) * psiF m k)⁻¹) := by
    intro k hk
    have hkm : k < m := Finset.mem_range.mp hk
    have hphik : phiF m k = (nodeF k + nodeF i) *
        (∏ l in (Finset.range m).erase i,
          (Polynomial.X + Polynomial.C (nodeF l))).eval (nodeF k) := by
      rw [phiF_eval m k, hfact]
      simp [Polynomial.eval_mul, Polynomial.eval_add]
    rw [hphik, node_add_eq i k, node_add_eq k i,
      show nodeF i + nodeF k = nodeF k + nodeF i from add_comm _ _]
    exact cancel_diag _ _ _ _ _ (node_add_ne_zero m hmp k i hkm hi)
  rw [Finset.sum_congr rfl hterm, ← Finset.mul_sum]
  set Q := ∏ l in (Finset.range m).erase i, (Polynomial.X + Polynomial.C (nodeF l))
    with hQdef
  have hQmonic : Q.Monic := nodal_monic _
  have hQdeg : Q.natDegree = m - 1 := by
    rw [hQdef, nodal_natDegree, Finset.card_erase_of_mem hmem, Finset.card_range]
  have hinj : Set.InjOn (fun l => if l = m then -(nodeF i) else nodeF l)
      ↑(Finset.range (m + 1)) := by
    intro a ha b hb hab
    simp only [Finset.coe_range, Set.mem_Iio] at ha hb
    have hab' : (if a = m then -(nodeF i) else nodeF a) =
        (if b = m then -(nodeF i) else nodeF b) := hab
    by_cases haM : a = m <;> by_cases hbM : b = m
    · omega
    · exfalso
      rw [if_pos haM, if_neg hbM] at hab'
      exact node_add_ne_zero m hmp b i (by omega) hi (by rw [← hab']; ring)
    · exfalso
      rw [if_neg haM, if_pos hbM] at hab'
      exact node_add_ne_zero m hmp a i (by omega) hi (by rw [hab']; ring)
    · rw [if_neg haM, if_neg hbM] at hab'
      by_contra hne
      exact node_ne m hmp a b (by omega) (by omega) hne hab'
  have hlag := @lagrange_coeff_sum (Finset.range (m + 1))
    (fun l => if l = m then -(nodeF i) else nodeF l) hinj Q
    (by
      rw [Polynomial.degree_eq_natDegree hQmonic.ne_zero, hQdeg, Finset.card_range]
      exact_mod_cast (show m - 1 < m + 1 by omega))
  rw [Finset.card_range, show m + 1 - 1 = m from rfl] at hlag
  rw [Finset.range_succ, Finset.sum_insert Finset.not_mem_range_self] at hlag
  simp only [eq_self_iff_true, if_true] at hlag
  have hA : (∏ t in (insert m (Finset.range m)).erase m,
      (-(nodeF i) - (if t = m then -(nodeF i) else nodeF t))) = (-1) ^ m * phiF m i := by
    rw [Finset.erase_insert Finset.not_mem_range_self]
    have hpow : ((-1 : F)) ^ m = ∏ _x in Finset.range m, (-1 : F) := by
      rw [Finset.prod_const, Finset.card_range]
    rw [phiF, hpow, ← Finset.prod_mul_distrib]
    apply Finset.prod_congr rfl
    intro t ht
    have htm : t < m := Finset.mem_range.mp ht
    rw [if_neg (by omega : ¬ t = m), node_add_eq i t]
    ring
  have hB : Q.eval (-(nodeF i)) = (-1) ^ (m - 1) * psiF m i := by
    rw [hQdef, nodal_eval]
    have hpow : ((-1 : F)) ^ (m - 1) = ∏ _x in (Finset.range m).erase i, (-1 : F) := by
      rw [Finset.prod_const, Finset.card_erase_of_mem hmem, Finset.card_range]
    rw [psiF, hpow, ← Finset.prod_mul_distrib]
    apply Finset.prod_congr rfl
    intro l hl
    ring
  rw [hA, hB] at hlag
  have hFl : ∀ l ∈ Finset.range m,
      Q.eval (if l = m then -(nodeF i) else nodeF l) *
        (∏ t in (insert m (Finset.range m)).erase l,
          ((if l = m then -(nodeF i) else nodeF l) -
            (if t = m then -(nodeF i) else nodeF t)))⁻¹ =
      Q.eval (nodeF l) * ((nodeF l + nodeF i) * psiF m l)⁻¹ := by
    intro l hl
    have hlm : l < m := Finset.mem_range.mp hl
    rw [if_neg (by omega : ¬ l = m)]
    have hprod : (∏ t in (insert m (Finset.range m)).erase l,
        (nodeF l - (if t = m then -(nodeF i) else nodeF t))) =
        (nodeF l + nodeF i) * psiF m l := by
      rw [Finset.erase_insert_of_ne (by omega : (m : ℕ) ≠ l)]
      rw [Finset.prod_insert
        (fun hcon => Finset.not_mem_range_self (Finset.mem_of_mem_erase hcon))]
      rw [if_pos rfl, sub_neg_eq_add, psiF]
      congr 1
      apply Finset.prod_congr rfl
      intro t ht
      have htm : t < m := Finset.mem_range.mp (Finset.mem_erase.mp ht).2
      rw [if_neg (by omega : ¬ t = m)]
    rw [hprod]
  rw [Finset.sum_congr rfl hFl] at hlag
  have hc0 : Q.coeff m = 0 :=
    Polynomial.coeff_eq_zero_of_natDegree_lt (by rw [hQdeg]; omega)
  rw [hc0] at hlag
  have hminv : (((-1 : F)) ^ m)⁻¹ = (-1 : F) ^ m := by
    rw [← inv_pow, inv_neg_one]
  have hhead : ((-1 : F) ^ (m - 1) * psiF m i) * ((-1 : F) ^ m * phiF m i)⁻¹ =
      -(psiF m i * (phiF m i)⁻¹) := by
    rw [mul_inv, hminv]
    calc ((-1 : F) ^ (m - 1) * psiF m i) * ((-1 : F) ^ m * (phiF m i)⁻¹)
        = ((-1 : F) ^ (m - 1) * (-1 : F) ^ m) * (psiF m i * (phiF m i)⁻¹) := by ring
      _ = -(psiF m i * (phiF m i)⁻¹) := by
          rw [← pow_add, (show Odd (m - 1 + m) from ⟨m - 1, by omega⟩).neg_one_pow]
          ring
  rw [hhead] at hlag
  have hsum2 : (∑ l in Finset.range m,
      Q.eval (nodeF l) * ((nodeF l + nodeF i) * psiF m l)⁻¹) = psiF m i * (phiF m i)⁻¹ := by
    linear_combination hlag
  rw [hsum2]
  calc phiF m i * (psiF m i)⁻¹ * (psiF m i * (phiF m i)⁻¹)
      = (phiF m i * (phiF m i)⁻¹) * ((psiF m i)⁻¹ * psiF m i) := by ring
    _ = 1 := by rw [mul_inv_cancel₀ hφ, inv_mul_cancel₀ hψ, one_mul]

/-! ### C2 part 5: from `mat_mul` to `Finset` sums, and the MDS inverse -/

theorem foldl_add_init : ∀ (l : List F) (a : F),
    l.foldl (· + ·) a = a + l.foldl (· + ·) 0 := by
  intro l
  induction l with
  | nil => intro a; simp
  | cons x t ih =>
      intro a
      rw [List.foldl_cons, List.foldl_cons, ih (a + x), ih (0 + x)]
      ring

theorem dotProd_map_range : ∀ (n : ℕ) (f : ℕ → F) (v : List F), v.length = n →
    dotProd ((List.range n).map f) v = ∑ k in Finset.range n, f k * v.getD k 0 := by
  intro n
  induction n with
  | zero => intro f v _; simp [dotProd]
  | succ n ih =>
      intro f v hv
      cases v with
      | nil => simp at hv
      | cons x v' =>
          rw [List.range_succ_eq_map, List.map_cons, List.map_map, dotProd,
            List.zipWith_cons_cons, List.foldl_cons, foldl_add_init, zero_add]
          have hrec := ih (f ∘ Nat.succ) v' (by simpa using hv)
          rw [dotProd] at hrec
          rw [hrec, Finset.sum_range_succ']
          simp only [List.getD_cons_succ, List.getD_cons_zero, Function.comp,
            Nat.succ_eq_add_one]
          rw [add_comm]

theorem matMulVec_map_range (rows : ℕ → List F) (n : ℕ) (v : List F) :
    matMulVec ((List.range n).map rows) v =
    (List.range n).map (fun i => dotProd (rows i) v) := by
  rw [matMulVec, List.map_map]
  rfl

/-- The code's `build_inverse_cauchy_matrix` really is a left inverse of
`build_cauchy_matrix` on length-`m` column vectors, provided the `2m` node
sums are invertible (`2m < p`). -/
theorem invCauchy_mul_cauchy (m : ℕ) (hmp : 2 * m < p) (v : List F) (hv : v.length = m) :
    matMulVec (buildInverseCauchyMatrix m) (matMulVec (buildCauchyMatrix m) v) = v := by
  rw [buildCauchyMatrix, matMulVec_map_range, buildInverseCauchyMatrix, matMulVec_map_range]
  apply List.ext_getElem
  · simp [hv]
  intro n h1 h2
  have hn : n < m := by rw [hv] at h2; exact h2
  simp only [List.getElem_map, List.getElem_range]
  rw [dotProd_map_range m _ _ (by simp)]
  trans (∑ k in Finset.range m,
    (phiF m n * phiF m k * (psiF m k * psiF m n * ((n + k + 2 : ℕ) : F))⁻¹) *
      ∑ l in Finset.range m, ((((k + 1) + (l + 1) : ℕ)) : F)⁻¹ * v.getD l 0)
  · apply Finset.sum_congr rfl
    intro k hk
    have hkm : k < m := Finset.mem_range.mp hk
    rw [getD_map_range _ _ m k hkm]
    rw [dotProd_map_range m _ v hv]
    exact congrArg (fun x => x * ∑ l in Finset.range m,
      ((((k + 1) + (l + 1) : ℕ)) : F)⁻¹ * v.getD l 0) (invEntryBody m n k hn hkm)
  simp only [Finset.mul_sum]
  rw [Finset.sum_comm]
  trans (∑ l in Finset.range m,
    (∑ k in Finset.range m,
      phiF m n * phiF m k * (psiF m k * psiF m n * ((n + k + 2 : ℕ) : F))⁻¹ *
        ((k + l + 2 : ℕ) : F)⁻¹) * v.getD l 0)
  · apply Finset.sum_congr rfl
    intro l _
    rw [Finset.sum_mul]
    apply Finset.sum_congr rfl
    intro k _
    rw [show (k + 1) + (l + 1) = k + l + 2 from by omega]
    ring
  trans (∑ l in Finset.range m, (if n = l then (1 : F) else 0) * v.getD l 0)
  · apply Finset.sum_congr rfl
    intro l hl
    have hlm : l < m := Finset.mem_range.mp hl
    by_cases hnl : n = l
    · subst hnl
      rw [cauchy_sum_diag m hmp n hn, if_pos rfl]
    · rw [cauchy_sum_off_diag m hmp n l hn hlm hnl, if_neg hnl]
  simp only [ite_mul, one_mul, zero_mul]
  rw [Finset.sum_ite_eq, if_pos (Finset.mem_range.mpr hn)]
  rw [List.getD_eq_getElem v 0 h2]

/-! ### C2 part 6: assembling the bijectivity claim -/

theorem getD_last_of_length (l : List (List F)) :
    ∀ n : ℕ, l.length = n + 1 → l.getD n [] = l.getLastD [] := by
  induction l with
  | nil => intro n h; simp at h
  | cons a t ih =>
      intro n h
      cases t with
      | nil =>
          have hn : n = 0 := by simpa using h
          subst hn
          rfl
      | cons b t' =>
          have hn : n = t'.length + 1 := by
            rw [List.length_cons, List.length_cons] at h
            omega
          subst hn
          rw [List.getD_cons_succ, List.getLastD_cons, List.getLastD_cons]
          have hrec := ih t'.length (by rw [List.length_cons])
          rw [List.getLastD_cons] at hrec
          exact hrec

/-- `rescue_permutation_inverse` undoes `rescue_permutation` whenever the
MDS matrix has a left inverse, the S-box exponents cancel in both orders,
and the key schedule has `2N + 1` length-`m` entries. -/
theorem rescue_inverse_rescue (mode : RescueMode) (a ai : ℕ) (mds mdsInv : List (List F))
    (m : ℕ) (hmds : mds.length = m)
    (hinv : ∀ w : List F, w.length = m → matMulVec mdsInv (matMulVec mds w) = w)
    (hEO : ∀ x : F,
      (x ^ exponentForEven mode a ai) ^ exponentForOdd mode a ai = x)
    (hOE : ∀ x : F,
      (x ^ exponentForOdd mode a ai) ^ exponentForEven mode a ai = x)
    (k0 : List F) (ks : List (List F)) (s : List F) (N : ℕ)
    (hks2N : ks.length = 2 * N) (hs : s.length = m) (hk0 : k0.length = m)
    (hksm : ∀ k' ∈ ks, k'.length = m) :
    (rescuePermutationInverse mode a ai mdsInv (k0 :: ks)
      ((rescuePermutation mode a ai mds (k0 :: ks) s).getD (2 * N) [])).getD (2 * N) [] =
      s := by
  have hfwd : (rescuePermutation mode a ai mds (k0 :: ks) s).getD (2 * N) [] =
      (rescuePermutationGo mds (exponentForEven mode a ai) (exponentForOdd mode a ai)
        (vecAdd s k0) 0 ks).getLastD [] := by
    rw [show rescuePermutation mode a ai mds (k0 :: ks) s =
      rescuePermutationGo mds (exponentForEven mode a ai) (exponentForOdd mode a ai)
        (vecAdd s k0) 0 ks from rfl]
    exact getD_last_of_length _ _ (by rw [rescuePermutationGo_length, hks2N])
  rw [hfwd]
  simp only [rescuePermutationInverse]
  have htail : (rescuePermutationInverseGo mdsInv (exponentForEven mode a ai)
      (exponentForOdd mode a ai)
      ((rescuePermutationGo mds (exponentForEven mode a ai) (exponentForOdd mode a ai)
        (vecAdd s k0) 0 ks).getLastD []) 0 ks.reverse).tail.length = 2 * N := by
    rw [List.length_tail, rescuePermutationInverseGo_length, List.length_reverse, hks2N]
    omega
  rw [show 2 * N = (rescuePermutationInverseGo mdsInv (exponentForEven mode a ai)
      (exponentForOdd mode a ai)
      ((rescuePermutationGo mds (exponentForEven mode a ai) (exponentForOdd mode a ai)
        (vecAdd s k0) 0 ks).getLastD []) 0 ks.reverse).tail.length from htail.symm]
  rw [getD_append_singleton]
  rw [invGo_fwdGo_cancel mds mdsInv m (exponentForEven mode a ai) (exponentForOdd mode a ai)
    hmds hinv hEO hOE ks (vecAdd s k0) 0 0 [] _
    (by omega) (by rw [length_vecAdd, hs, hk0]; simp) hksm]
  exact vecSub_vecAdd_cancel s k0 (by rw [hs, hk0])

/-- Every valid descriptor's `permute_inverse` undoes its `permute` on
length-`m` states: the Cauchy MDS matrices invert each other
(`2m < p` follows from `m` being a `size_t` value), and the S-box
exponents `α = 5`, `α⁻¹` cancel in both orders. -/
theorem permute_roundtrip (d : RescueDescM) (hval : d.valid) (s : List F)
    (hs : s.length = d.mval) : d.permuteInverse (d.permute s) = s := by
  obtain ⟨hmode, hlen, hkeys, hm64⟩ := hval
  have hmp2 : 2 * d.mval < p := by
    have h1 : 2 * d.mval < 2 * 2 ^ 64 := by omega
    have h2 : 2 * 2 ^ 64 < p := by norm_num [p]
    omega
  have hEO : ∀ x : F,
      (x ^ exponentForEven d.mode (getAlphaAndInverse p).1 (getAlphaAndInverse p).2) ^
        exponentForOdd d.mode (getAlphaAndInverse p).1 (getAlphaAndInverse p).2 = x := by
    rw [getAlphaAndInverse_p]
    rcases d.mode with key | ⟨mm, cap⟩
    · exact sbox_cancel_de
    · exact sbox_cancel_ed
  have hOE : ∀ x : F,
      (x ^ exponentForOdd d.mode (getAlphaAndInverse p).1 (getAlphaAndInverse p).2) ^
        exponentForEven d.mode (getAlphaAndInverse p).1 (getAlphaAndInverse p).2 = x := by
    rw [getAlphaAndInverse_p]
    rcases d.mode with key | ⟨mm, cap⟩
    · exact sbox_cancel_ed
    · exact sbox_cancel_de
  cases hk : d.roundKeys with
  | nil => rw [hk] at hlen; simp at hlen
  | cons k0 ks =>
      rw [RescueDescM.permute, RescueDescM.permuteInverse, hk]
      exact rescue_inverse_rescue d.mode _ _ (buildCauchyMatrix d.mval)
        (buildInverseCauchyMatrix d.mval) d.mval (length_buildCauchyMatrix _)
        (fun w hw => invCauchy_mul_cauchy d.mval hmp2 w hw) hEO hOE k0 ks s d.nRounds
        (by rw [hk, List.length_cons] at hlen; omega) hs
        (hkeys k0 (by rw [hk]; simp))
        (fun k' h => hkeys k' (by rw [hk]; simp [h]))

/-- C2: for every valid `RescueDesc` (cipher mode with a key of at least 2
field elements, or hash mode with `m > capacity ≥ 1`, round keys of the
right shape) and every length-`m` state vector `s`,
`permute_inverse(permute(s)) = s`. -/
theorem C2_permutation_bijectivity (d : RescueDescM) (hval : d.valid) (s : List F)
    (hs : s.length = d.mval) : d.permuteInverse (d.permute s) = s :=
  permute_roundtrip d hval s hs

/-- Witness for C2: the concrete hash-mode descriptor `(m, capacity) =
(2, 1)` with zero rounds and the single round key `[0, 0]` is valid, and
the round trip restores the state `[3, 4]`. -/
theorem C2_permutation_bijectivity_witness :
    (RescueDescM.mk (RescueMode.HashMode 2 1) 0 [[0, 0]]).valid ∧
    ([3, 4] : List F).length = (RescueDescM.mk (RescueMode.HashMode 2 1) 0 [[0, 0]]).mval ∧
    (RescueDescM.mk (RescueMode.HashMode 2 1) 0 [[0, 0]]).permuteInverse
      ((RescueDescM.mk (RescueMode.HashMode 2 1) 0 [[0, 0]]).permute [3, 4]) = [3, 4] := by
  have hval : (RescueDescM.mk (RescueMode.HashMode 2 1) 0 [[0, 0]]).valid := by
    refine ⟨⟨by norm_num, le_refl 1⟩, rfl, ?_,
      (by norm_num : (2 : ℕ) < 18446744073709551616)⟩
    intro k hk
    have hk' : k = [0, 0] := by simpa using hk
    subst hk'
    rfl
  have hlen : ([3, 4] : List F).length =
      (RescueDescM.mk (RescueMode.HashMode 2 1) 0 [[0, 0]]).mval := rfl
  exact ⟨hval, hlen, C2_permutation_bijectivity _ hval [3, 4] hlen⟩

/-! ### C9: nonce separation (partial result)

With the SHAKE256-derived round keys left universally quantified, the
claim cannot be settled for plaintexts shorter than one block: only a
prefix of the first permutation output is exposed, and single components
of the permutation are not injective for arbitrary round keys.  For
plaintexts of at least one full block the entire first keystream block is
exposed and separation follows from the permutation round trip. -/

theorem permute_injective (d : RescueDescM) (hval : d.valid) (x y : List F)
    (hx : x.length = d.mval) (hy : y.length = d.mval)
    (h : d.permute x = d.permute y) : x = y := by
  have h1 := permute_roundtrip d hval x hx
  have h2 := permute_roundtrip d hval y hy
  rw [← h1, ← h2, h]

theorem leVal_lt : ∀ bytes : List ℕ, (∀ b ∈ bytes, b < 256) →
    leVal bytes < 256 ^ bytes.length := by
  intro bytes
  induction bytes with
  | nil => intro _; rw [leVal]; simp
  | cons b t ih =>
      intro h
      rw [leVal, List.foldr_cons]
      have hb : b < 256 := h b (by simp)
      have ht := ih (fun x hx => h x (by simp [hx]))
      rw [leVal] at ht
      rw [List.length_cons, pow_succ]
      omega

theorem leVal_inj : ∀ b1 b2 : List ℕ, b1.length = b2.length →
    (∀ x ∈ b1, x < 256) → (∀ x ∈ b2, x < 256) → leVal b1 = leVal b2 → b1 = b2 := by
  intro b1
  induction b1 with
  | nil =>
      intro b2 hlen _ _ _
      cases b2 with
      | nil => rfl
      | cons c t2 => simp at hlen
  | cons a t ih =>
      intro b2 hlen hb1 hb2 hv
      cases b2 with
      | nil => simp at hlen
      | cons c t2 =>
          rw [leVal, List.foldr_cons, leVal, List.foldr_cons] at hv
          have ha : a < 256 := hb1 a (by simp)
          have hc : c < 256 := hb2 c (by simp)
          have hsplit : a = c ∧ t.foldr (fun b acc => b + 256 * acc) 0 =
              t2.foldr (fun b acc => b + 256 * acc) 0 := by omega
          obtain ⟨h1, h2⟩ := hsplit
          subst h1
          congr 1
          exact ih t2 (by simpa using hlen) (fun x hx => hb1 x (by simp [hx]))
            (fun x hx => hb2 x (by simp [hx])) (by rw [leVal, leVal]; exact h2)

theorem getD_zipWith_add (l1 l2 : List F) (i : ℕ) (h1 : i < l1.length)
    (h2 : i < l2.length) :
    (List.zipWith (· + ·) l1 l2).getD i 0 = l1.getD i 0 + l2.getD i 0 := by
  rw [List.getD_eq_getElem _ _ (by rw [List.length_zipWith]; omega),
    List.getD_eq_getElem _ _ h1, List.getD_eq_getElem _ _ h2]
  simp

theorem getD_flatMap_first (g : ℕ → List F) (m0 i : ℕ) (hi : i < (g 0).length) :
    ((List.range (m0 + 1)).flatMap g).getD i 0 = (g 0).getD i 0 := by
  rw [List.range_succ_eq_map, List.flatMap_cons]
  exact List.getD_append _ _ _ _ hi

/-- Nonce separation for plaintexts of at least one full block: distinct
16-byte nonces give different ciphertexts (for EVERY plaintext of length
≥ 5 — the plaintext cancels, so no nonzero condition is needed).  The
first keystream block is `permute([nonce, 0, 0, 0, 0])`, fully exposed in
the ciphertext, and `permute` is injective by the round trip. -/
theorem nonce_separation_full_block (c : RescueCipherM) (hval : c.desc.valid)
    (hm : c.desc.mval = RESCUE_CIPHER_BLOCK_SIZE)
    (P : List F) (hP : RESCUE_CIPHER_BLOCK_SIZE ≤ P.length)
    (n1 n2 : List ℕ) (hn1len : n1.length = 16) (hn2len : n2.length = 16)
    (hn1b : ∀ x ∈ n1, x < 256) (hn2b : ∀ x ∈ n2, x < 256) (hne : n1 ≠ n2) :
    c.encryptRaw P (leVal n1) ≠ c.encryptRaw P (leVal n2) := by
  intro hceq
  have hP5 : 5 ≤ P.length := by simpa [RESCUE_CIPHER_BLOCK_SIZE] using hP
  have hpt : ¬ P.isEmpty = true := by
    rw [List.isEmpty_iff]
    intro h
    rw [h] at hP5
    simp at hP5
  set n := (P.length + RESCUE_CIPHER_BLOCK_SIZE - 1) / RESCUE_CIPHER_BLOCK_SIZE with hn
  have hle : P.length ≤ n * RESCUE_CIPHER_BLOCK_SIZE := by
    rw [hn]
    simp only [RESCUE_CIPHER_BLOCK_SIZE]
    have := Nat.div_add_mod (P.length + 5 - 1) 5
    omega
  obtain ⟨m0, hm0⟩ : ∃ m0, n = m0 + 1 := by
    rw [hn]
    simp only [RESCUE_CIPHER_BLOCK_SIZE]
    have h1 : 1 ≤ (P.length + 5 - 1) / 5 :=
      (Nat.le_div_iff_mul_le (by norm_num)).mpr (by omega)
    exact ⟨(P.length + 5 - 1) / 5 - 1, by omega⟩
  have hn1pos : 0 < n := by omega
  have hslice : ∀ ν : ℕ, ∀ b < n,
      (((generateCounter ν n).drop (b * RESCUE_CIPHER_BLOCK_SIZE)).take
        RESCUE_CIPHER_BLOCK_SIZE).length = RESCUE_CIPHER_BLOCK_SIZE := by
    intro ν b hb
    rw [List.length_take, List.length_drop, generateCounter_length]
    simp only [RESCUE_CIPHER_BLOCK_SIZE]
    omega
  have hks : ∀ ν : ℕ, ∀ b < n,
      (c.desc.permute (((generateCounter ν n).drop
        (b * RESCUE_CIPHER_BLOCK_SIZE)).take RESCUE_CIPHER_BLOCK_SIZE)).length
        = RESCUE_CIPHER_BLOCK_SIZE := by
    intro ν b hb
    rw [permute_length c.desc hval _ (by rw [hslice ν b hb, hm]), hm]
  have henc : ∀ ν : ℕ, c.encryptRaw P ν =
      List.zipWith (· + ·) P
        ((List.range n).flatMap
          (fun b => c.desc.permute
            (((generateCounter ν n).drop
              (b * RESCUE_CIPHER_BLOCK_SIZE)).take RESCUE_CIPHER_BLOCK_SIZE))) := by
    intro ν
    rw [RescueCipherM.encryptRaw, if_neg hpt]
    exact flatMap_chunk_zip _ RESCUE_CIPHER_BLOCK_SIZE n P _ (hks ν) hle
  have hKSlen : ∀ ν : ℕ, ((List.range n).flatMap
      (fun b => c.desc.permute
        (((generateCounter ν n).drop
          (b * RESCUE_CIPHER_BLOCK_SIZE)).take RESCUE_CIPHER_BLOCK_SIZE))).length =
      n * RESCUE_CIPHER_BLOCK_SIZE :=
    fun ν => length_flatMap_const _ RESCUE_CIPHER_BLOCK_SIZE n (hks ν)
  rw [henc (leVal n1), henc (leVal n2)] at hceq
  have hband : c.desc.permute (((generateCounter (leVal n1) n).drop
      (0 * RESCUE_CIPHER_BLOCK_SIZE)).take RESCUE_CIPHER_BLOCK_SIZE) =
      c.desc.permute (((generateCounter (leVal n2) n).drop
        (0 * RESCUE_CIPHER_BLOCK_SIZE)).take RESCUE_CIPHER_BLOCK_SIZE) := by
    apply List.ext_getElem
    · rw [hks (leVal n1) 0 hn1pos, hks (leVal n2) 0 hn1pos]
    intro i hi1 hi2
    have hi5 : i < 5 := by
      rw [hks (leVal n1) 0 hn1pos] at hi1
      simpa [RESCUE_CIPHER_BLOCK_SIZE] using hi1
    have hiP : i < P.length := by omega
    have hgd := congrArg (fun l => l.getD i 0) hceq
    have hgd' : (List.zipWith (· + ·) P
        ((List.range n).flatMap
          (fun b => c.desc.permute
            (((generateCounter (leVal n1) n).drop
              (b * RESCUE_CIPHER_BLOCK_SIZE)).take RESCUE_CIPHER_BLOCK_SIZE)))).getD i 0 =
        (List.zipWith (· + ·) P
        ((List.range n).flatMap
          (fun b => c.desc.permute
            (((generateCounter (leVal n2) n).drop
              (b * RESCUE_CIPHER_BLOCK_SIZE)).take RESCUE_CIPHER_BLOCK_SIZE)))).getD i 0 :=
      hgd
    rw [getD_zipWith_add P _ i hiP (by
        rw [hKSlen (leVal n1)]
        simp only [RESCUE_CIPHER_BLOCK_SIZE]
        omega),
      getD_zipWith_add P _ i hiP (by
        rw [hKSlen (leVal n2)]
        simp only [RESCUE_CIPHER_BLOCK_SIZE]
        omega)] at hgd'
    have hK := add_left_cancel hgd'
    rw [hm0] at hK
    rw [getD_flatMap_first _ m0 i (by
        rw [← hm0, hks (leVal n1) 0 hn1pos]
        simpa [RESCUE_CIPHER_BLOCK_SIZE] using hi5),
      getD_flatMap_first _ m0 i (by
        rw [← hm0, hks (leVal n2) 0 hn1pos]
        simpa [RESCUE_CIPHER_BLOCK_SIZE] using hi5)] at hK
    rw [← hm0] at hK
    rw [List.getD_eq_getElem _ _ hi1, List.getD_eq_getElem _ _ hi2] at hK
    exact hK
  have hsliceeq := permute_injective c.desc hval _ _
    (by rw [hslice (leVal n1) 0 hn1pos, hm]) (by rw [hslice (leVal n2) 0 hn1pos, hm])
    hband
  have hval0 : ∀ ν : ℕ, (((generateCounter ν n).drop
      (0 * RESCUE_CIPHER_BLOCK_SIZE)).take RESCUE_CIPHER_BLOCK_SIZE).getD 0 0 =
      (ν : F) := by
    intro ν
    rw [hm0, generateCounter, List.range_succ_eq_map, List.flatMap_cons]
    simp [RESCUE_CIPHER_BLOCK_SIZE]
  have hcast : ((leVal n1 : ℕ) : F) = ((leVal n2 : ℕ) : F) := by
    rw [← hval0 (leVal n1), ← hval0 (leVal n2), hsliceeq]
  have hb1 : leVal n1 < p := by
    have := leVal_lt n1 hn1b
    rw [hn1len] at this
    have h2 : (256 : ℕ) ^ 16 < p := by norm_num [p]
    omega
  have hb2 : leVal n2 < p := by
    have := leVal_lt n2 hn2b
    rw [hn2len] at this
    have h2 : (256 : ℕ) ^ 16 < p := by norm_num [p]
    omega
  rw [natCast_inj_small _ _ hb1 hb2] at hcast
  exact hne (leVal_inj n1 n2 (by rw [hn1len, hn2len]) hn1b hn2b hcast)
